import Mathlib

/-!
Verification of the beamer-cli text-to-text pipeline (Markdown→Beamer
converter, structural linter, Beamer→HTML exporter) against its
natural-language specification.

Strings are modelled as `List Char`; the JavaScript string operations used by
the source (`split`, `startsWith`, `includes`, `replace` with simple regexes,
`trim`) are modelled by executable functions below.  Each definition mirrors
one function (or one self-contained part of a function) of the TypeScript
source in `src/commands/watch.ts`, `src/commands/lint.ts` and
`src/commands/export.ts`.
-/

set_option maxHeartbeats 1000000
set_option maxRecDepth 40000

namespace BeamerCli

/-- The character `{` (written via its code so that brace characters never
appear literally inside string or character literals). -/
def lbrace : Char := Char.ofNat 123

/-- The character `}`. -/
def rbrace : Char := Char.ofNat 125

/-- `pfx p l` is true iff the list `p` is a prefix of `l`
(JS `l.startsWith(p)`). -/
def pfx : List Char → List Char → Bool
  | [], _ => true
  | _ :: _, [] => false
  | a :: as, b :: bs => a = b && pfx as bs

/-- JS `l.includes(p)`: some contiguous occurrence of `p` inside `l`. -/
def containsSub (p : List Char) : List Char → Bool
  | [] => pfx p []
  | c :: rest => pfx p (c :: rest) || containsSub p rest

/-- One pass of JS `String.replace(/c/g, rep)` for a single-character
pattern `c`: every occurrence of `c` is replaced by `rep`; replacement text
is not rescanned. -/
def flatReplaceChar (c : Char) (rep : List Char) : List Char → List Char
  | [] => []
  | d :: rest => (if d = c then rep else [d]) ++ flatReplaceChar c rep rest

/-- Fuelled worker for `replaceAll`: leftmost non-overlapping occurrences of
`pat` are replaced by `rep`, continuing after each replacement
(JS `String.replaceAll` / `String.replace` with a `g`-flagged literal
pattern).  Each step consumes at least one character of the subject, so fuel
equal to the subject length is always sufficient. -/
def replaceAllF (pat rep : List Char) : Nat → List Char → List Char
  | 0, s => s
  | _ + 1, [] => []
  | f + 1, c :: rest =>
    if pat ≠ [] ∧ pfx pat (c :: rest) then
      rep ++ replaceAllF pat rep f (List.drop (pat.length - 1) rest)
    else
      c :: replaceAllF pat rep f rest

/-- JS `s.replaceAll(pat, rep)` for a non-empty literal pattern. -/
def replaceAll (pat rep s : List Char) : List Char :=
  replaceAllF pat rep s.length s

/-- JS `s.split('\n')`: split on every newline, keeping empty segments. -/
def splitNl : List Char → List (List Char)
  | [] => [[]]
  | c :: rest =>
    match splitNl rest with
    | [] => [[]]
    | l :: ls => if c = '\n' then [] :: l :: ls else (c :: l) :: ls

/-- The whitespace class used by JS `\s` and `String.trim` (ASCII whitespace
plus the Unicode space separators). -/
def jsSpace (c : Char) : Bool :=
  c = ' ' || c = '\t' || c = '\n' || c = '\r' || c = Char.ofNat 0x0b ||
  c = Char.ofNat 0x0c || c = Char.ofNat 0xa0 || c = Char.ofNat 0xfeff ||
  c = Char.ofNat 0x1680 || c = Char.ofNat 0x2028 || c = Char.ofNat 0x2029 ||
  c = Char.ofNat 0x202f || c = Char.ofNat 0x205f || c = Char.ofNat 0x3000 ||
  (0x2000 ≤ c.toNat && c.toNat ≤ 0x200a)

/-- JS `String.trim`. -/
def trimJs (l : List Char) : List Char :=
  ((l.dropWhile jsSpace).reverse.dropWhile jsSpace).reverse

/-- The JS `\w` word-character class `[A-Za-z0-9_]`. -/
def wordChar (c : Char) : Bool :=
  c.isAlpha || c.isDigit || c = '_'

/-! ## `watch.ts` — escaping and inline formatting -/

/-- The `emojiMap` table of `watch.ts` (lines 439–474), in source order. -/
def emojiMap : List (List Char × List Char) :=
  [("✅".data, "[OK]".data), ("❌".data, "[X]".data), ("⭐".data, "*".data),
   ("🔥".data, "[!]".data), ("💡".data, "[i]".data), ("⚠️".data, "[!]".data),
   ("📍".data, "[>]".data), ("🎉".data, "".data), ("🐙".data, "".data),
   ("✨".data, "".data), ("🚀".data, "[>]".data), ("💰".data, "[$]".data),
   ("📧".data, "[email]".data), ("📅".data, "[cal]".data),
   ("🏆".data, "[#1]".data), ("👍".data, "[+]".data), ("👎".data, "[-]".data),
   ("❤️".data, "[<3]".data), ("🌤️".data, "".data), ("☀️".data, "".data),
   ("⛅".data, "".data), ("🔴".data, "[!]".data), ("🟡".data, "[~]".data),
   ("🟢".data, "[OK]".data), ("🔧".data, "".data), ("📋".data, "".data),
   ("🛒".data, "".data), ("🚗".data, "".data), ("🥾".data, "".data),
   ("🌲".data, "".data), ("🏠".data, "".data), ("👨‍👩‍👧‍👧".data, "".data),
   ("🇺🇸".data, "US".data), ("🇮🇳".data, "IN".data)]

/-- The emoji code-point ranges stripped by `handleEmojis`
(`[\u{1F300}-\u{1F9FF}]|[\u{2600}-\u{26FF}]|[\u{2700}-\u{27BF}]|
[\u{1F600}-\u{1F64F}]|[\u{1F680}-\u{1F6FF}]|[\u{1F1E0}-\u{1F1FF}]`). -/
def inEmojiRange (c : Char) : Bool :=
  (0x1f300 ≤ c.toNat && c.toNat ≤ 0x1f9ff) ||
  (0x2600 ≤ c.toNat && c.toNat ≤ 0x26ff) ||
  (0x2700 ≤ c.toNat && c.toNat ≤ 0x27bf) ||
  (0x1f600 ≤ c.toNat && c.toNat ≤ 0x1f64f) ||
  (0x1f680 ≤ c.toNat && c.toNat ≤ 0x1f6ff) ||
  (0x1f1e0 ≤ c.toNat && c.toNat ≤ 0x1f1ff)

/-- `handleEmojis` of `watch.ts`: replace each known emoji (in table order),
then strip any remaining character in the emoji ranges. -/
def handleEmojis (s : List Char) : List Char :=
  (emojiMap.foldl (fun t p => replaceAll p.1 p.2 t) s).filter
    (fun c => !inEmojiRange c)

/-- The ten single-character substitutions of `escapeLatex`, in source
order. -/
def escapeChars : List (Char × List Char) :=
  [('\\', "\\textbackslash\x7b\x7d".data),
   ('_', "\\_".data),
   ('&', "\\&".data),
   ('%', "\\%".data),
   ('$', "\\$".data),
   ('#', "\\#".data),
   (lbrace, "\\\x7b".data),
   (rbrace, "\\\x7d".data),
   ('~', "\\textasciitilde\x7b\x7d".data),
   ('^', "\\textasciicircum\x7b\x7d".data)]

/-- `escapeLatex` of `watch.ts` (lines 492–511): emoji handling, the ten
character substitutions in order, then the three "undo" replacements for
`\textbf\_{`, `\textit\_{` and `\texttt\_{`. -/
def escapeLatex (s : List Char) : List Char :=
  let t0 := handleEmojis s
  let t1 := escapeChars.foldl (fun u p => flatReplaceChar p.1 p.2 u) t0
  let t2 := replaceAll "\\textbf\\_\x7b".data "\\textbf\x7b".data t1
  let t3 := replaceAll "\\textit\\_\x7b".data "\\textit\x7b".data t2
  replaceAll "\\texttt\\_\x7b".data "\\texttt\x7b".data t3

/-- Search for the lazy closing delimiter of `/DL(.+?)DL/`: given the text
after an opening delimiter `dl`, return the shortest non-empty run of
non-newline characters followed by `dl`, together with the remainder after
that closing delimiter. -/
def fmtFind (dl : List Char) : List Char → Option (List Char × List Char)
  | [] => none
  | c :: rest =>
    if c = '\n' then none
    else if pfx dl rest then some ([c], rest.drop dl.length)
    else
      match fmtFind dl rest with
      | some (inner, rem) => some (c :: inner, rem)
      | none => none

/-- Fuelled worker for one `text.replace(/DL(.+?)DL/g, 'CMD{$1}')` pass of
`formatInlineMarkdown`: scan left to right, and at each position where the
delimiter opens and a lazy close exists, emit `cmd ++ "{" ++ inner ++ "}"`
and continue after the close; otherwise emit one character and continue. -/
def fmtPassF (dl cmd : List Char) : Nat → List Char → List Char
  | 0, s => s
  | _ + 1, [] => []
  | f + 1, c :: rest =>
    if pfx dl (c :: rest) then
      match fmtFind dl (List.drop dl.length (c :: rest)) with
      | some (inner, rem) =>
        cmd ++ lbrace :: (inner ++ rbrace :: fmtPassF dl cmd f rem)
      | none => c :: fmtPassF dl cmd f rest
    else c :: fmtPassF dl cmd f rest

/-- One global regex-replace pass (fuel instantiated to the subject
length, which is always sufficient). -/
def fmtPass (dl cmd s : List Char) : List Char :=
  fmtPassF dl cmd s.length s

/-- `formatInlineMarkdown` of `watch.ts` (lines 395–400): bold `**…**`,
then italic `*…*`, then inline code backtick spans. -/
def formatInlineMarkdown (s : List Char) : List Char :=
  fmtPass "`".data "\\texttt".data
    (fmtPass "*".data "\\textit".data
      (fmtPass "**".data "\\textbf".data s))

/-- The markup-control characters escaped by `escapeLatex` (the keys of
`escapeChars`).  `noCtrl s` states that `s` contains none of them. -/
def noCtrl (s : List Char) : Bool :=
  s.all (fun c => !(escapeChars.any (fun p => p.1 = c)))

/-! ## `watch.ts` — `parseMarkdown` -/

/-- A slide produced by `parseMarkdown` (`watch.ts` lines 151–155).  The
source declares `notes` optional, but every slide it constructs carries a
(possibly empty) notes array, so a plain list is used. -/
structure MdSlide where
  title : List Char
  content : List (List Char)
  notes : List (List Char)
deriving DecidableEq

/-- A string-keyed record with JS-object assignment semantics: assignment
overwrites in place, new keys are appended. -/
def recSet : List (List Char × List Char) → List Char → List Char →
    List (List Char × List Char)
  | [], k, v => [(k, v)]
  | p :: rest, k, v =>
    if p.1 = k then (k, v) :: rest else p :: recSet rest k v

/-- Key lookup in a record (case-sensitive, as in JS). -/
def recGet : List (List Char × List Char) → List Char → Option (List Char)
  | [], _ => none
  | p :: rest, k => if p.1 = k then some p.2 else recGet rest k

/-- Key membership in a record (JS `Map.has` / `key in obj`). -/
def recHas : List (List Char × List Char) → List Char → Bool
  | [], _ => false
  | p :: rest, k => p.1 = k || recHas rest k

/-- The frontmatter line pattern `^(\w+):\s*(.+)$` of `parseMarkdown`:
a non-empty word-character key, a colon, greedy whitespace, then a
non-empty remainder (the greedy `\s*` backs off by one character when the
whole remainder is whitespace, because `(.+)` needs at least one). -/
def fmMatch (l : List Char) : Option (List Char × List Char) :=
  let k := l.takeWhile wordChar
  match l.drop k.length with
  | ':' :: r =>
    if k = [] ∨ r = [] then none
    else
      let w := r.takeWhile jsSpace
      if w.length = r.length then some (k, r.drop (r.length - 1))
      else some (k, r.drop w.length)
  | _ => none

/-- The scanner state of `parseMarkdown`: accumulated slides and metadata,
the currently open slide, and the three mode flags. -/
structure MdState where
  slides : List MdSlide
  meta : List (List Char × List Char)
  cur : Option MdSlide
  fm : Bool
  code : Bool
  notes : Bool
deriving DecidableEq

/-- Close the current slide, if any (`slides.push(currentSlide)`). -/
def pushCur (st : MdState) : List MdSlide :=
  st.slides ++ (match st.cur with | some s => [s] | none => [])

/-- One iteration of the `parseMarkdown` line loop (`watch.ts` lines
171–240), for the line at 0-based index `i`.  The branch order matches the
source exactly; note that the code-fence toggle falls through to the
remaining branches and that the `Note:`/`Notes:` branch is not guarded by
the code-block flag. -/
def parseLine (i : Nat) (st : MdState) (line : List Char) : MdState :=
  if i = 0 ∧ line = "---".data then { st with fm := true }
  else if st.fm then
    if line = "---".data then { st with fm := false }
    else
      match fmMatch line with
      | some kv => { st with meta := recSet st.meta kv.1 kv.2 }
      | none => st
  else
    let st1 := if pfx "```".data line then { st with code := !st.code } else st
    if !st1.code ∧ line = "---".data then
      { st1 with slides := pushCur st1, cur := none, notes := false }
    else if pfx "Note:".data line ∨ pfx "Notes:".data line then
      { st1 with notes := true }
    else if !st1.code ∧ pfx "## ".data line then
      { st1 with slides := pushCur st1,
                 cur := some ⟨trimJs (line.drop 3), [], []⟩, notes := false }
    else if !st1.code ∧ pfx "# ".data line ∧ ¬ pfx "## ".data line then
      { st1 with meta :=
          if recHas st1.meta "title".data then st1.meta
          else recSet st1.meta "title".data (trimJs (line.drop 2)) }
    else
      match st1.cur with
      | some s =>
        if st1.notes then { st1 with cur := some { s with notes := s.notes ++ [line] } }
        else { st1 with cur := some { s with content := s.content ++ [line] } }
      | none => st1

/-- The `parseMarkdown` line loop over a list of lines starting at index
`i`. -/
def parseLinesFrom : List (List Char) → Nat → MdState → MdState
  | [], _, st => st
  | l :: ls, i, st => parseLinesFrom ls (i + 1) (parseLine i st l)

/-- The initial `parseMarkdown` state. -/
def initState : MdState := ⟨[], [], none, false, false, false⟩

/-- `parseMarkdown md` (`watch.ts` lines 161–248): split on newlines, run
the line loop, and emit the trailing open slide. -/
def parseMarkdownFull (md : List Char) : MdState :=
  parseLinesFrom (splitNl md) 0 initState

/-- The slide list returned by `parseMarkdown` (including the trailing
open slide pushed after the loop). -/
def parseMarkdownSlides (md : List Char) : List MdSlide :=
  pushCur (parseMarkdownFull md)

/-! ## `lint.ts` — the structural linter

Issue messages are modelled by an inductive type whose constructors carry
the variable parts of the source's message strings (so two issues are equal
exactly when the source would print identical messages). -/

inductive Severity where
  | error
  | warning
deriving DecidableEq

inductive LintMessage where
  | missingDocumentClass
  | missingBeginDocument
  | missingEndDocument
  | unmatchedClosingBrace
  | unclosedBraces (n : Nat)
  | endWithoutBegin (name : List Char)
  | endMismatch (endName beginName : List Char) (beginLine : Nat)
  | beginNeverClosed (name : List Char)
  | frameNoTitle
  | unescapedUnderscore
deriving DecidableEq

inductive RuleId where
  | documentClass
  | beginDocument
  | endDocument
  | braceBalance
  | envBalance
  | frameTitle
  | underscore
deriving DecidableEq

structure LintIssue where
  line : Nat
  severity : Severity
  message : LintMessage
  rule : RuleId
deriving DecidableEq

/-- Comment stripping of the brace-balance rule: the active part of a line
is everything before the first `%` (`line.indexOf('%')` / `line.slice`). -/
def stripComment (l : List Char) : List Char :=
  l.takeWhile (fun c => c ≠ '%')

/-- The issue pushed for an unmatched closing brace at 1-based line `n`. -/
def closingIssue (n : Nat) : LintIssue :=
  ⟨n, .error, .unmatchedClosingBrace, .braceBalance⟩

/-- One character of the brace-balance scan (`lint.ts` lines 55–68):
increment on `{`, decrement on `}`, and when the counter would go negative
push an error at this line and reset it to zero. -/
def braceCharStep (idx : Nat) (st : Int × List LintIssue) (ch : Char) :
    Int × List LintIssue :=
  let cnt : Int :=
    if ch = lbrace then st.1 + 1 else if ch = rbrace then st.1 - 1 else st.1
  if cnt < 0 then (0, st.2 ++ [closingIssue (idx + 1)]) else (cnt, st.2)

/-- The per-line loop of the brace-balance scan, carrying the counter
across lines; `idx` is the 0-based index of the first line of `ls`. -/
def braceScanLines : List (List Char) → Nat → (Int × List LintIssue) →
    Int × List LintIssue
  | [], _, st => st
  | l :: ls, idx, st =>
    braceScanLines ls (idx + 1) ((stripComment l).foldl (braceCharStep idx) st)

/-- `rules.unmatchedBraces` of `lint.ts` (lines 46–81). -/
def unmatchedBraces (lines : List (List Char)) : List LintIssue :=
  let r := braceScanLines lines 0 (0, [])
  if r.1 > 0 then
    r.2 ++ [⟨lines.length, .error, .unclosedBraces r.1.toNat, .braceBalance⟩]
  else r.2

/-- Match `/\\begin\{(\w+)\}/` (or `\end`, via `pre`) at the start of `l`:
the literal prefix, a non-empty greedy word run, then `}`.  Returns the
captured name and the remainder after the match. -/
def matchCmdAt (pre l : List Char) : Option (List Char × List Char) :=
  if pfx pre l then
    let r := l.drop pre.length
    let w := r.takeWhile wordChar
    if w ≠ [] ∧ (r.drop w.length).head? = some rbrace then
      some (w, r.drop (w.length + 1))
    else none
  else none

/-- Fuelled global-match scan (`line.match(/…/g)`): all non-overlapping
matches left to right, each continuing after the previous match. -/
def cmdMatchesF (pre : List Char) : Nat → List Char → List (List Char)
  | 0, _ => []
  | _ + 1, [] => []
  | f + 1, c :: rest =>
    match matchCmdAt pre (c :: rest) with
    | some (w, after) => w :: cmdMatchesF pre f after
    | none => cmdMatchesF pre f rest

/-- All `\begin{name}` (or `\end{name}`) names on a line, in order. -/
def cmdMatches (pre l : List Char) : List (List Char) :=
  cmdMatchesF pre l.length l

/-- One line of the environment-balance scan (`lint.ts` lines 87–121):
push all begins of the line (in order), then process all ends of the line.
The stack keeps its most recent entry at the head. -/
def envLineStep (idx : Nat) (st : List (List Char × Nat) × List LintIssue)
    (l : List Char) : List (List Char × Nat) × List LintIssue :=
  let begins := cmdMatches "\\begin\x7b".data l
  let ends := cmdMatches "\\end\x7b".data l
  let stack1 := begins.foldl (fun s n => (n, idx + 1) :: s) st.1
  ends.foldl
    (fun si n =>
      match si.1 with
      | [] => ([], si.2 ++ [⟨idx + 1, .error, .endWithoutBegin n, .envBalance⟩])
      | top :: rest =>
        if top.1 = n then (rest, si.2)
        else (rest, si.2 ++ [⟨idx + 1, .error, .endMismatch n top.1 top.2, .envBalance⟩]))
    (stack1, st.2)

/-- The per-line loop of the environment-balance scan. -/
def envScanLines : List (List Char) → Nat →
    (List (List Char × Nat) × List LintIssue) →
    List (List Char × Nat) × List LintIssue
  | [], _, st => st
  | l :: ls, idx, st => envScanLines ls (idx + 1) (envLineStep idx st l)

/-- `rules.unmatchedEnvironments` of `lint.ts` (lines 83–133): after the
scan, every environment still on the stack (bottom first, as `forEach`
iterates the array from index 0) yields a "never closed" error at its
opening line. -/
def unmatchedEnvironments (lines : List (List Char)) : List LintIssue :=
  let r := envScanLines lines 0 ([], [])
  r.2 ++ r.1.reverse.map (fun p => ⟨p.2, .error, .beginNeverClosed p.1, .envBalance⟩)

/-- Whether the next line (if any) contains `pat`
(`lines[idx + 1]?.includes(pat)`, with `undefined` counting as false). -/
def nextHas (pat : List Char) : List (List Char) → Bool
  | [] => false
  | n :: _ => containsSub pat n

/-- The body of `rules.frameWithoutTitle` (`lint.ts` lines 136–154),
scanning from 0-based index `idx`; note the source's condition requires the
line to contain `\begin{frame}` and simultaneously to contain no `{`. -/
def fwtAux : List (List Char) → Nat → List LintIssue
  | [], _ => []
  | l :: ls, idx =>
    (if containsSub "\\begin\x7bframe\x7d".data l ∧
        ¬ containsSub [lbrace] l ∧
        ¬ nextHas "\\frametitle".data ls ∧
        ¬ nextHas "\\titlepage".data ls then
      (if ¬ containsSub "[fragile]".data l ∧ ¬ containsSub "[plain]".data l ∧
          ¬ containsSub "[standout]".data l then
        [⟨idx + 1, .warning, .frameNoTitle, .frameTitle⟩]
      else [])
    else []) ++ fwtAux ls (idx + 1)

/-- `rules.frameWithoutTitle` of `lint.ts`. -/
def frameWithoutTitle (lines : List (List Char)) : List LintIssue :=
  fwtAux lines 0

/-- Fuelled scan deleting every leftmost match recognised by `try1`
(JS `String.replace(/…/g, '')` for the underscore rule's patterns):
`try1` returns the remainder after a match at the current position. -/
def scanRemove (try1 : List Char → Option (List Char)) :
    Nat → List Char → List Char
  | 0, s => s
  | _ + 1, [] => []
  | f + 1, c :: rest =>
    match try1 (c :: rest) with
    | some after => scanRemove try1 f after
    | none => c :: scanRemove try1 f rest

/-- Match `/\$[^$]+\$/` at the current position. -/
def tryDollar (l : List Char) : Option (List Char) :=
  match l with
  | '$' :: r =>
    let w := r.takeWhile (fun c => c ≠ '$')
    if w ≠ [] ∧ (r.drop w.length).head? = some '$' then
      some (r.drop (w.length + 1))
    else none
  | _ => none

/-- Match `/\\texttt\{[^}]+\}/` at the current position. -/
def tryTexttt (l : List Char) : Option (List Char) :=
  if pfx "\\texttt\x7b".data l then
    let r := l.drop 8
    let w := r.takeWhile (fun c => c ≠ rbrace)
    if w ≠ [] ∧ (r.drop w.length).head? = some rbrace then
      some (r.drop (w.length + 1))
    else none
  else none

/-- Match `/\\[a-zA-Z]+/` at the current position. -/
def tryCmd (l : List Char) : Option (List Char) :=
  match l with
  | '\\' :: r =>
    let w := r.takeWhile Char.isAlpha
    if w ≠ [] then some (r.drop w.length) else none
  | _ => none

/-- The four stripping passes of `rules.underscoreInText` (`lint.ts` lines
174–178), in order: inline math, `\texttt{…}` spans, escaped underscores,
then command tokens. -/
def stripForUnderscore (l : List Char) : List Char :=
  let s1 := scanRemove tryDollar l.length l
  let s2 := scanRemove tryTexttt s1.length s1
  let s3 := replaceAll "\\_".data [] s2
  scanRemove tryCmd s3.length s3

/-- One line of `rules.underscoreInText` (`lint.ts` lines 157–191),
carrying the listing/verbatim flag; the line that opens a listing is
itself skipped, while the line that closes one is checked. -/
def undLineStep (idx : Nat) (st : Bool × List LintIssue) (l : List Char) :
    Bool × List LintIssue :=
  let in1 :=
    if containsSub "\\begin\x7blstlisting\x7d".data l ||
       containsSub "\\begin\x7bverbatim\x7d".data l then true else st.1
  let in2 :=
    if containsSub "\\end\x7blstlisting\x7d".data l ||
       containsSub "\\end\x7bverbatim\x7d".data l then false else in1
  if in2 then (in2, st.2)
  else if (stripForUnderscore l).any (fun c => c = '_') then
    (in2, st.2 ++ [⟨idx + 1, .warning, .unescapedUnderscore, .underscore⟩])
  else (in2, st.2)

/-- The per-line loop of `rules.underscoreInText`. -/
def undScanLines : List (List Char) → Nat → (Bool × List LintIssue) →
    Bool × List LintIssue
  | [], _, st => st
  | l :: ls, idx, st => undScanLines ls (idx + 1) (undLineStep idx st l)

/-- `rules.underscoreInText` of `lint.ts`. -/
def underscoreInText (lines : List (List Char)) : List LintIssue :=
  (undScanLines lines 0 (false, [])).2

/-- The three presence checks of `lint.ts` (lines 24–43), each anchored at
line 1 when its marker is missing from the whole content. -/
def presenceIssues (content : List Char) : List LintIssue :=
  (if ¬ containsSub "\\documentclass".data content then
    [⟨1, .error, .missingDocumentClass, .documentClass⟩] else []) ++
  (if ¬ containsSub "\\begin\x7bdocument\x7d".data content then
    [⟨1, .error, .missingBeginDocument, .beginDocument⟩] else []) ++
  (if ¬ containsSub "\\end\x7bdocument\x7d".data content then
    [⟨1, .error, .missingEndDocument, .endDocument⟩] else [])

/-- Stable insertion into a line-sorted issue list (the new issue goes
after all issues with a line number not exceeding its own). -/
def insIssue (x : LintIssue) : List LintIssue → List LintIssue
  | [] => [x]
  | y :: ys => if y.line ≤ x.line then y :: insIssue x ys else x :: y :: ys

/-- Stable sort by line number (`issues.sort((a, b) => a.line - b.line)`,
which JS guarantees to be stable). -/
def sortByLine : List LintIssue → List LintIssue
  | [] => []
  | x :: xs => insIssue x (sortByLine xs)

/-- The full issue list produced by `lint` (`lint.ts` lines 225–246):
presence checks, balance checks and style checks concatenated in source
order, then sorted by line. -/
def lintReport (content : List Char) : List LintIssue :=
  let lines := splitNl content
  sortByLine
    (presenceIssues content ++ unmatchedBraces lines ++
     unmatchedEnvironments lines ++ frameWithoutTitle lines ++
     underscoreInText lines)

/-- Whether an issue has error severity. -/
def isError (i : LintIssue) : Bool :=
  match i.severity with
  | .error => true
  | .warning => false

/-- The exit code of the `lint` command (`lint.ts` lines 249–271):
`process.exit(1)` when at least one error-severity issue exists, normal
termination (exit code 0) otherwise. -/
def lintExitCode (content : List Char) : Nat :=
  if ((lintReport content).filter isError).length > 0 then 1 else 0

/-! ## `watch.ts` — `mermaidToTikz` node/edge registration

The graph construction of `mermaidToTikz` (lines 89–119).  The TikZ text
generation (lines 121–147) consumes this graph but does not alter it. -/

/-- Match the optional `(?:\[([^\]]+)\])?` label group at the current
position: a `[`, a non-empty run of non-`]` characters, then `]`. -/
def bracketAt (l : List Char) : Option (List Char × List Char) :=
  match l with
  | '[' :: r =>
    let w := r.takeWhile (fun c => c ≠ ']')
    if w ≠ [] ∧ (r.drop w.length).head? = some ']' then
      some (w, r.drop (w.length + 1))
    else none
  | _ => none

/-- Match the edge pattern
`(\w+)(?:\[([^\]]+)\])?\s*-->\s*(\w+)(?:\[([^\]]+)\])?` at the current
position.  Greedy word runs and the whitespace runs are deterministic here
(shrinking a `\w+` run leaves a word character where `[` or `-` is
required, so regex backtracking can never produce a different match). -/
def edgeTryAt (l : List Char) :
    Option (List Char × Option (List Char) × List Char × Option (List Char)) :=
  let w1 := l.takeWhile wordChar
  if w1 = [] then none
  else
    let r1 := l.drop w1.length
    let p1 := bracketAt r1
    let r2 := match p1 with | some q => q.2 | none => r1
    let r3 := r2.dropWhile jsSpace
    if pfx "-->".data r3 then
      let r4 := (r3.drop 3).dropWhile jsSpace
      let w2 := r4.takeWhile wordChar
      if w2 = [] then none
      else
        some (w1, (p1.map (·.1)), w2, ((bracketAt (r4.drop w2.length)).map (·.1)))
    else none

/-- `line.match(edgeRegex)`: the leftmost position where the edge pattern
matches. -/
def edgeMatchLine : List Char → Option (List Char × Option (List Char) × List Char × Option (List Char))
  | [] => none
  | c :: rest =>
    match edgeTryAt (c :: rest) with
    | some x => some x
    | none => edgeMatchLine rest

/-- `line.match(/(\w+)\[([^\]]+)\]/)`: the leftmost bare node declaration
`id[label]`. -/
def nodeMatchLine : List Char → Option (List Char × List Char)
  | [] => none
  | c :: rest =>
    (let w := (c :: rest).takeWhile wordChar
     if w ≠ [] then
       match bracketAt ((c :: rest).drop w.length) with
       | some q => some (w, q.1)
       | none => none
     else none).orElse (fun _ => nodeMatchLine rest)

/-- The node map (a JS `Map`, insertion-ordered) and edge list built by
`mermaidToTikz`. -/
structure MGraph where
  nodes : List (List Char × List Char)
  edges : List (List Char × List Char)
deriving DecidableEq

/-- One line of the `mermaidToTikz` loop (`watch.ts` lines 101–119): try
the edge pattern first (registering explicit labels, then defaulting
missing endpoints to their own id without overwriting, then appending the
edge), otherwise try a bare node declaration (which overwrites). -/
def mermaidLineStep (g : MGraph) (l : List Char) : MGraph :=
  match edgeMatchLine l with
  | some (fromId, fromLabel, toId, toLabel) =>
    let n0 := g.nodes
    let n1 := match fromLabel with | some fl => recSet n0 fromId fl | none => n0
    let n2 := match toLabel with | some tl => recSet n1 toId tl | none => n1
    let n3 := if recHas n2 fromId then n2 else recSet n2 fromId fromId
    let n4 := if recHas n3 toId then n3 else recSet n3 toId toId
    ⟨n4, g.edges ++ [(fromId, toId)]⟩
  | none =>
    match nodeMatchLine l with
    | some (id, label) => { g with nodes := recSet g.nodes id label }
    | none => g

/-- The graph built by `mermaidToTikz mermaid`: trim, split into lines,
and fold the line step over every line after the direction header. -/
def mermaidGraph (mermaid : List Char) : MGraph :=
  ((splitNl (trimJs mermaid)).drop 1).foldl mermaidLineStep ⟨[], []⟩

/-! ## `export.ts` — frame extraction (`parseLatex`) -/

/-- First occurrence of `pat` inside `l`: `some (before, after)` with
`l = before ++ pat ++ after`, preferring the leftmost occurrence. -/
def findSub (pat : List Char) : List Char → Option (List Char × List Char)
  | [] => if pat = [] then some ([], []) else none
  | c :: rest =>
    if pfx pat (c :: rest) then some ([], (c :: rest).drop pat.length)
    else
      match findSub pat rest with
      | some q => some (c :: q.1, q.2)
      | none => none

/-- All ways the lazy bracket group `\[.*?\]` opened at the previous `[`
can close, shortest content first: the remainders after each `]` that is
preceded only by non-newline characters. -/
def bracketCloses : List Char → List (List Char)
  | [] => []
  | c :: rest =>
    if c = '\n' then []
    else (if c = ']' then [rest] else []) ++ bracketCloses rest

/-- The alternatives for the optional group `(?:\[.*?\])?` after the
begin-frame marker, in regex backtracking order: every bracket close
(shortest first) when the next character is `[`, then the empty-group
alternative. -/
def frameChoices (r : List Char) : List (List Char) :=
  (match r with
   | c :: r2 => if c = '[' then bracketCloses r2 else []
   | [] => []) ++ [r]

/-- Continue the frame pattern after the optional bracket group:
`\{([^}]*)\}([\s\S]*?)\\end\{frame\}` — a brace-delimited (possibly empty)
title, then the lazy body up to the first end-frame marker.  Returns
`(title, body, remainder)`. -/
def frameContAt (c : List Char) : Option (List Char × List Char × List Char) :=
  match c with
  | d :: r3 =>
    if d = lbrace then
      if (r3.dropWhile (fun e => e ≠ rbrace)).head? = some rbrace then
        match findSub "\\end\x7bframe\x7d".data
            ((r3.dropWhile (fun e => e ≠ rbrace)).tail) with
        | some q => some (r3.takeWhile (fun e => e ≠ rbrace), q.1, q.2)
        | none => none
      else none
    else none
  | [] => none

/-- First alternative that completes the frame pattern. -/
def firstFrameCont : List (List Char) → Option (List Char × List Char × List Char)
  | [] => none
  | c :: cs =>
    match frameContAt c with
    | some x => some x
    | none => firstFrameCont cs

/-- Attempt the whole frame pattern
`\\begin\{frame\}(?:\[.*?\])?\{([^}]*)\}([\s\S]*?)\\end\{frame\}` at the
current position. -/
def frameTryAt (cs : List Char) : Option (List Char × List Char × List Char) :=
  if pfx "\\begin\x7bframe\x7d".data cs then
    firstFrameCont (frameChoices (cs.drop 13))
  else none

/-- Fuelled `frameRegex.exec` loop (`export.ts` lines 37–52): successive
non-overlapping matches, each resuming after the previous match's end. -/
def scanFramesF : Nat → List Char → List (List Char × List Char)
  | 0, _ => []
  | _ + 1, [] => []
  | f + 1, c :: rest =>
    match frameTryAt (c :: rest) with
    | some (t, b, after) => (t, b) :: scanFramesF f after
    | none => scanFramesF f rest

/-- The `(title, body)` pairs extracted by `parseLatex`; each pair yields
one `Slide` (and hence one HTML `section`) of the export. -/
def parseLatexFrames (content : List Char) : List (List Char × List Char) :=
  scanFramesF content.length content

/-! ## Spec-side definitions

These two definitions follow the specification's words (not the source) and
are used to state refinement-style claims against the source models. -/

/-- Modelled from the spec: the number of unmatched opening braces left
after scanning `cs` starting with `n` open braces (the depth counter never
goes below zero — truncated subtraction realises the reset). -/
def braceN : List Char → Nat → Nat
  | [], n => n
  | c :: rest, n =>
    braceN rest (if c = lbrace then n + 1 else if c = rbrace then n - 1 else n)

/-- Modelled from the spec: the number of unmatched closing braces in `cs`
when the scan starts with `n` open braces (a closing brace at depth zero is
unmatched). -/
def braceM : List Char → Nat → Nat
  | [], _ => 0
  | c :: rest, n =>
    (if c = rbrace ∧ n = 0 then 1 else 0) +
      braceM rest (if c = lbrace then n + 1 else if c = rbrace then n - 1 else n)

/-- Modelled from the spec: the pair `(N, M)` of unmatched opening and
closing braces of a character sequence under the standard interleaving
matching. -/
def braceDebt (cs : List Char) : Nat × Nat :=
  (braceN cs 0, braceM cs 0)

/-- Modelled from the spec: the number of level-2 headings (lines starting
with `## `) outside code fences (fence state toggled by lines starting
with triple backticks), starting from fence state `code`. -/
def countH2 : List (List Char) → Bool → Nat
  | [], _ => 0
  | l :: ls, code =>
    let code1 := if pfx "```".data l then !code else code
    (if !code1 ∧ pfx "## ".data l then 1 else 0) + countH2 ls code1

/-- Drop the remainder of a frontmatter block: everything up to and
including the next `---` line (or everything, if it never closes). -/
def dropFm : List (List Char) → List (List Char)
  | [] => []
  | l :: ls => if l = "---".data then ls else dropFm ls

/-- Remove the leading frontmatter block (present when the first line is
exactly `---`), mirroring the frontmatter handling of `parseMarkdown`. -/
def stripFrontmatter : List (List Char) → List (List Char)
  | [] => []
  | l :: ls => if l = "---".data then dropFm ls else l :: ls

/-! ## Proof-infrastructure definitions -/

/-- The unmatched-open count carried across lines by the brace scan. -/
def linesN : List (List Char) → Nat → Nat
  | [], n => n
  | l :: ls, n => linesN ls (braceN (stripComment l) n)

/-- The total unmatched-close count across lines. -/
def linesM : List (List Char) → Nat → Nat
  | [], _ => 0
  | l :: ls, n =>
    braceM (stripComment l) n + linesM ls (braceN (stripComment l) n)

/-- The unmatched-closing-brace issues emitted by the brace scan, line by
line (each line at 0-based index `idx` contributes one issue per unmatched
close on it). -/
def closingsFor : List (List Char) → Nat → Nat → List LintIssue
  | [], _, _ => []
  | l :: ls, idx, n =>
    List.replicate (braceM (stripComment l) n) (closingIssue (idx + 1)) ++
      closingsFor ls (idx + 1) (braceN (stripComment l) n)

/-- Whether an issue is an unmatched-closing-brace error. -/
def isClosingMsg (i : LintIssue) : Bool :=
  match i.message with
  | .unmatchedClosingBrace => true
  | _ => false

/-- Whether an issue is an `N unclosed brace(s)` error. -/
def isUnclosedMsg (i : LintIssue) : Bool :=
  match i.message with
  | .unclosedBraces _ => true
  | _ => false

/-- A character that `handleEmojis` is guaranteed to eliminate: either it
lies in the stripped emoji ranges, or it is the star emoji (U+2B50), whose
map entry removes every occurrence. -/
def emojiLive (c : Char) : Bool :=
  inEmojiRange c || c = '⭐'

/-- A representative document in the shape emitted by `generateLatex`: a
bare title-page frame, one titled frame, and a bare closing frame. -/
def demoFrameDoc : List Char :=
  "\\begin\x7bframe\x7d\n  \\titlepage\n\\end\x7bframe\x7d\n\n\\begin\x7bframe\x7d\x7bT\x7d\nbody\n\\end\x7bframe\x7d\n\n\\begin\x7bframe\x7d\n  \\centering\n  \\Huge Questions?\n\\end\x7bframe\x7d".data

/-! ## Basic lemmas on the string primitives -/

theorem pfx_append_drop {p l : List Char} (h : pfx p l = true) :
    l = p ++ l.drop p.length := by
  induction p generalizing l with
  | nil => simp
  | cons a as ih =>
    cases l with
    | nil => simp [pfx] at h
    | cons b bs =>
      simp only [pfx, Bool.and_eq_true, decide_eq_true_eq] at h
      obtain ⟨rfl, h2⟩ := h
      simpa using ih h2

theorem pfx_mem {p l : List Char} (h : pfx p l = true) {c : Char}
    (hc : c ∈ p) : c ∈ l := by
  rw [pfx_append_drop h]
  exact List.mem_append_left _ hc

theorem containsSub_mem {p l : List Char} (h : containsSub p l = true)
    {c : Char} (hc : c ∈ p) : c ∈ l := by
  induction l with
  | nil =>
    simp only [containsSub] at h
    cases p with
    | nil => cases hc
    | cons a as => simp [pfx] at h
  | cons b bs ih =>
    simp only [containsSub, Bool.or_eq_true] at h
    rcases h with h | h
    · exact pfx_mem h hc
    · exact List.mem_cons_of_mem _ (ih h)

theorem containsSub_single {c : Char} {l : List Char} (h : c ∈ l) :
    containsSub [c] l = true := by
  induction l with
  | nil => cases h
  | cons b bs ih =>
    rcases List.mem_cons.mp h with rfl | h
    · simp [containsSub, pfx]
    · simp [containsSub, ih h]

/-! ## Claim C3 — the frame-without-title rule -/

/-- Claim C3: the spec says a bare begin-frame marker with no bracketed
option and no brace-delimited title, whose next line sets no title, is
flagged with a "Frame without title" warning.  The source's condition
requires the line to contain `\begin{frame}` and simultaneously to contain
no `{` — which is impossible, since the marker itself contains `{` — so the
rule can never fire: on every input, `frameWithoutTitle` returns no issues.
This theorem evaluates the code's behaviour, exhibiting the divergence from
the claim. -/
theorem frameWithoutTitle_never_fires (lines : List (List Char)) :
    frameWithoutTitle lines = [] := by
  have aux : ∀ (ls : List (List Char)) (idx : Nat), fwtAux ls idx = [] := by
    intro ls
    induction ls with
    | nil => intro idx; rfl
    | cons l rest ih =>
      intro idx
      have hcond : ¬ (containsSub "\\begin\x7bframe\x7d".data l = true ∧
          ¬ containsSub [lbrace] l = true ∧
          ¬ nextHas "\\frametitle".data rest = true ∧
          ¬ nextHas "\\titlepage".data rest = true) := by
        rintro ⟨h1, h2, -, -⟩
        exact h2 (containsSub_single
          (containsSub_mem h1 (by decide : lbrace ∈ "\\begin\x7bframe\x7d".data)))
      simp only [fwtAux, if_neg hcond, List.nil_append]
      exact ih (idx + 1)
  simpa [frameWithoutTitle] using aux lines 0

/-! ## Claim C6 — `Note:` inside a code fence -/

/-- Claim C6 (failing input): the spec says a `Note:`/`Notes:` line switches
notes mode only outside fenced code blocks, and inside a fence is ordinary
code content.  In the source the `Note:` check is not guarded by the
code-block flag; on `"## T\n```\nNote: hi\nx\n```\nafter"` the fenced
`Note: hi` line is swallowed and every later line of the slide — including
the closing fence — lands in the notes instead of the content. -/
theorem noteInsideFence_switchesMode :
    parseMarkdownSlides "## T\n```\nNote: hi\nx\n```\nafter".data =
      [⟨"T".data, ["```".data],
        ["x".data, "```".data, "after".data]⟩] := by
  decide

/-! ## Lemmas on `splitNl` -/

theorem splitNl_cons (c : Char) (rest : List Char) :
    splitNl (c :: rest) =
      match splitNl rest with
      | [] => [[]]
      | l :: ls => if c = '\n' then [] :: l :: ls else (c :: l) :: ls := rfl

theorem splitNl_ne_nil (l : List Char) : splitNl l ≠ [] := by
  cases l with
  | nil => simp [splitNl]
  | cons c rest =>
    rcases h : splitNl rest with - | ⟨a, as⟩
    · simp [splitNl_cons, h]
    · rw [splitNl_cons, h]
      by_cases hc : c = '\n' <;> simp [hc]

theorem splitNl_nonl {l : List Char} (h : ∀ c ∈ l, c ≠ '\n') :
    splitNl l = [l] := by
  induction l with
  | nil => rfl
  | cons c rest ih =>
    have hc : c ≠ '\n' := h c (List.mem_cons_self c rest)
    have hr : splitNl rest = [rest] :=
      ih (fun d hd => h d (List.mem_cons_of_mem c hd))
    rw [splitNl_cons, hr]
    simp [hc]

theorem splitNl_append_nl {xs rest : List Char} (h : ∀ c ∈ xs, c ≠ '\n') :
    splitNl (xs ++ '\n' :: rest) = xs :: splitNl rest := by
  induction xs with
  | nil =>
    rcases hr : splitNl rest with - | ⟨a, as⟩
    · exact absurd hr (splitNl_ne_nil rest)
    · rw [List.nil_append, splitNl_cons, hr]
      simp
  | cons c xs ih =>
    have hc : c ≠ '\n' := h c (List.mem_cons_self c xs)
    have hr := ih (fun d hd => h d (List.mem_cons_of_mem c hd))
    rw [List.cons_append, splitNl_cons, hr]
    simp [hc]

/-! ## Helper lemmas on single `parseMarkdown` steps -/

theorem parseLine_notesLine (i : Nat) (st : MdState) (line : List Char)
    (hfm : st.fm = false)
    (hfence : pfx "```".data line = false) (hbd : line ≠ "---".data)
    (hn : pfx "Note:".data line = true ∨ pfx "Notes:".data line = true) :
    parseLine i st line = { st with notes := true } := by
  rcases hn with hn | hn <;>
    simp [parseLine, hfm, hfence, hbd, hn]

theorem parseLine_plainLine (i : Nat) (st : MdState) (line : List Char)
    (hfm : st.fm = false)
    (hfence : pfx "```".data line = false) (hbd : line ≠ "---".data)
    (hn1 : pfx "Note:".data line = false) (hn2 : pfx "Notes:".data line = false)
    (hh2 : pfx "## ".data line = false) (hh1 : pfx "# ".data line = false) :
    parseLine i st line =
      match st.cur with
      | some s =>
        if st.notes then { st with cur := some { s with notes := s.notes ++ [line] } }
        else { st with cur := some { s with content := s.content ++ [line] } }
      | none => st := by
  simp [parseLine, hfm, hfence, hbd, hn1, hn2, hh2, hh1]

theorem parseLine_plainDrop (i : Nat) (st : MdState) (line : List Char)
    (hfm : st.fm = false) (hcur : st.cur = none)
    (hfence : pfx "```".data line = false) (hbd : line ≠ "---".data)
    (hn1 : pfx "Note:".data line = false) (hn2 : pfx "Notes:".data line = false)
    (hh2 : pfx "## ".data line = false) (hh1 : pfx "# ".data line = false) :
    parseLine i st line = st := by
  rw [parseLine_plainLine i st line hfm hfence hbd hn1 hn2 hh2 hh1, hcur]

/-! ## Claim C4 — `Notes:` line text -/

/-- Claim C4 (counterexample): the spec's scenario says that for a slide
whose content is followed by the line `Notes: remember X`, the text
`remember X` ends up in the slide's notes.  In the source the whole
`Notes:` line is consumed by the mode switch (`continue`), so the slide's
notes are empty: `remember X` appears in neither the notes nor the
content. -/
theorem notesLineText_dropped :
    parseMarkdownSlides "## T\nHello\nNotes: remember X".data =
      [⟨"T".data, ["Hello".data], []⟩] := by
  decide

/-- Claim C4 (amended): a `Notes:` line switches the slide into
notes-accumulation mode and is itself discarded — whatever text follows
`Notes:` on that line (here an arbitrary newline-free `t`) appears in
neither the notes nor the content — while subsequent lines are collected
into the notes, not the content. -/
theorem notesLine_switchesAndDiscards (t : List Char)
    (ht : ∀ c ∈ t, c ≠ '\n') :
    parseMarkdownSlides
        ("## T\nHello\nNotes: ".data ++ (t ++ "\nremember X".data)) =
      [⟨"T".data, ["Hello".data], ["remember X".data]⟩] := by
  have e : "## T\nHello\nNotes: ".data ++ (t ++ "\nremember X".data)
      = "## T".data ++ '\n' ::
          ("Hello".data ++ '\n' ::
            (("Notes: ".data ++ t) ++ '\n' :: "remember X".data)) := by
    rw [List.append_assoc "Notes: ".data t]; exact rfl
  have hnl : ∀ c ∈ "Notes: ".data ++ t, c ≠ '\n' := by
    intro c hc
    rcases List.mem_append.mp hc with hc | hc
    · exact (by decide : ∀ c ∈ "Notes: ".data, c ≠ '\n') c hc
    · exact ht c hc
  have h1 : splitNl ("## T\nHello\nNotes: ".data ++ (t ++ "\nremember X".data))
      = ["## T".data, "Hello".data, "Notes: ".data ++ t, "remember X".data] := by
    rw [e, splitNl_append_nl (by decide), splitNl_append_nl (by decide),
      splitNl_append_nl hnl, splitNl_nonl (by decide)]
  rw [parseMarkdownSlides, parseMarkdownFull, h1]
  have step2 : parseLinesFrom
      ["## T".data, "Hello".data, "Notes: ".data ++ t, "remember X".data] 0
      initState =
      parseLinesFrom ["remember X".data] 3
        (parseLine 2
          ⟨[], [], some ⟨"T".data, ["Hello".data], []⟩, false, false, false⟩
          ("Notes: ".data ++ t)) := rfl
  rw [step2, parseLine_notesLine 2
    ⟨[], [], some ⟨"T".data, ["Hello".data], []⟩, false, false, false⟩
    ("Notes: ".data ++ t) rfl rfl
    (by intro h; injection h with h1 h2; exact absurd h1 (by decide))
    (Or.inr rfl)]
  decide

/-! ## Claim C5 — the slide-break delimiter -/

/-- Claim C5 (counterexample): the spec says a `---` line closes the
current slide and starts a new empty one, so content between `---` and the
next level-2 heading is collected.  In the source the break sets the
current slide to `null` and opens nothing, so the line `y` between the
break and `## B` is discarded: the result has two slides and `y` appears
nowhere. -/
theorem slideBreak_discardsFollowingContent :
    parseMarkdownSlides "## A\nx\n---\ny\n## B\nz".data =
      [⟨"A".data, ["x".data], []⟩, ⟨"B".data, ["z".data], []⟩] := by
  decide

/-- Claim C5 (amended): a `---` line outside code blocks closes the current
slide and leaves no slide open; any ordinary content line between the break
and the next level-2 heading (an arbitrary newline-free `y` that is not
itself a delimiter, fence, notes marker or heading) is discarded rather
than collected. -/
theorem slideBreak_leavesNoOpenSlide (y : List Char)
    (hnl : ∀ c ∈ y, c ≠ '\n') (hbd : y ≠ "---".data)
    (hfence : pfx "```".data y = false)
    (hn1 : pfx "Note:".data y = false) (hn2 : pfx "Notes:".data y = false)
    (hh2 : pfx "## ".data y = false) (hh1 : pfx "# ".data y = false) :
    parseMarkdownSlides ("## A\nx\n---\n".data ++ (y ++ "\n## B\nz".data)) =
      [⟨"A".data, ["x".data], []⟩, ⟨"B".data, ["z".data], []⟩] := by
  have h1 : splitNl ("## A\nx\n---\n".data ++ (y ++ "\n## B\nz".data))
      = ["## A".data, "x".data, "---".data, y, "## B".data, "z".data] := by
    have e : "## A\nx\n---\n".data ++ (y ++ "\n## B\nz".data)
        = "## A".data ++ '\n' ::
            ("x".data ++ '\n' ::
              ("---".data ++ '\n' ::
                (y ++ '\n' :: ("## B".data ++ '\n' :: "z".data)))) := rfl
    rw [e, splitNl_append_nl (by decide), splitNl_append_nl (by decide),
      splitNl_append_nl (by decide), splitNl_append_nl hnl,
      splitNl_append_nl (by decide), splitNl_nonl (by decide)]
  rw [parseMarkdownSlides, parseMarkdownFull, h1]
  have step3 : parseLinesFrom
      ["## A".data, "x".data, "---".data, y, "## B".data, "z".data] 0
      initState =
      parseLinesFrom ["## B".data, "z".data] 4
        (parseLine 3
          ⟨[⟨"A".data, ["x".data], []⟩], [], none, false, false, false⟩ y) :=
    rfl
  rw [step3, parseLine_plainDrop 3
    ⟨[⟨"A".data, ["x".data], []⟩], [], none, false, false, false⟩ y
    rfl rfl hfence hbd hn1 hn2 hh2 hh1]
  decide

/-- Claim C4 amended theorem, instantiated at the spec's concrete scenario
text. -/
theorem notesLine_switchesAndDiscards_witness :
    parseMarkdownSlides
        ("## T\nHello\nNotes: ".data ++
          ("remember X".data ++ "\nremember X".data)) =
      [⟨"T".data, ["Hello".data], ["remember X".data]⟩] :=
  notesLine_switchesAndDiscards "remember X".data (by decide)

/-- Claim C5 amended theorem, instantiated at a concrete discarded line. -/
theorem slideBreak_leavesNoOpenSlide_witness :
    parseMarkdownSlides ("## A\nx\n---\n".data ++ ("y".data ++ "\n## B\nz".data)) =
      [⟨"A".data, ["x".data], []⟩, ⟨"B".data, ["z".data], []⟩] :=
  slideBreak_leavesNoOpenSlide "y".data (by decide) (by decide) rfl rfl rfl
    rfl rfl

/-! ## Claim C7 — slide count equals heading count -/

theorem pfx_head_ne {a b : Char} {p q l : List Char} (hab : a ≠ b)
    (h1 : pfx (a :: p) l = true) (h2 : pfx (b :: q) l = true) : False := by
  cases l with
  | nil => simp [pfx] at h1
  | cons c rest =>
    simp only [pfx, Bool.and_eq_true, decide_eq_true_eq] at h1 h2
    exact hab (h1.1.trans h2.1.symm)

/-- One `parseMarkdown` step outside the frontmatter: the frontmatter flag
stays off, the code flag toggles exactly on fence lines, and the number of
accumulated-plus-open slides grows by one exactly on level-2 heading lines
outside code. -/
theorem parseLine_anal (i : Nat) (st : MdState) (l : List Char)
    (hfm : st.fm = false) (hi : ¬ (i = 0 ∧ l = "---".data)) :
    (parseLine i st l).fm = false ∧
    (parseLine i st l).code =
      (if pfx "```".data l = true then !st.code else st.code) ∧
    (pushCur (parseLine i st l)).length = (pushCur st).length +
      (if ((!(if pfx "```".data l = true then !st.code else st.code)) = true ∧
          pfx "## ".data l = true) then 1 else 0) := by
  obtain ⟨sl, m, cur, fm, code, notes⟩ := st
  simp only [MdState.fm] at hfm
  subst hfm
  by_cases h1 : pfx "```".data l = true <;>
  by_cases h2 : l = "---".data <;>
  by_cases h3 : pfx "Note:".data l = true <;>
  by_cases h4 : pfx "Notes:".data l = true <;>
  by_cases h5 : pfx "## ".data l = true <;>
  by_cases h6 : pfx "# ".data l = true <;>
  cases code <;> cases notes <;> rcases cur with - | s <;>
  simp_all +decide [parseLine, pushCur, pfx] <;>
  first
    | exact pfx_head_ne (by decide) h1 h3
    | exact pfx_head_ne (by decide) h1 h4
    | exact pfx_head_ne (by decide) h3 h5
    | exact pfx_head_ne (by decide) h4 h5

/-- The line loop outside the frontmatter adds one slide per level-2
heading outside code fences. -/
theorem parseLinesFrom_len :
    ∀ (ls : List (List Char)) (i : Nat) (st : MdState),
      st.fm = false → i ≠ 0 →
      (pushCur (parseLinesFrom ls i st)).length =
        (pushCur st).length + countH2 ls st.code := by
  intro ls
  induction ls with
  | nil => intro i st h hi; simp [parseLinesFrom, countH2]
  | cons l rest ih =>
    intro i st hfm hi
    obtain ⟨k1, k2, k3⟩ := parseLine_anal i st l hfm (fun hc => hi hc.1)
    rw [parseLinesFrom, ih (i + 1) _ k1 (Nat.succ_ne_zero i), k2, k3, countH2]
    omega

/-- The line loop inside the frontmatter produces no slides and resumes
ordinary scanning after the closing delimiter. -/
theorem parseLinesFrom_fm :
    ∀ (ls : List (List Char)) (i : Nat) (st : MdState),
      st.fm = true → st.code = false → i ≠ 0 →
      (pushCur (parseLinesFrom ls i st)).length =
        (pushCur st).length + countH2 (dropFm ls) false := by
  intro ls
  induction ls with
  | nil => intro i st h hc hi; simp [parseLinesFrom, dropFm, countH2]
  | cons l rest ih =>
    intro i st hfm hc hi
    rw [parseLinesFrom]
    by_cases hl : l = "---".data
    · have hstep : parseLine i st l = { st with fm := false } := by
        rw [parseLine, if_neg (fun hcc => hi hcc.1), if_pos (by simp [hfm]),
          if_pos hl]
      rw [hstep, dropFm, if_pos hl]
      have := parseLinesFrom_len rest (i + 1)
        { st with fm := false } rfl (Nat.succ_ne_zero i)
      simpa [pushCur, hc] using this
    · have hstep : parseLine i st l =
          match fmMatch l with
          | some kv => { st with meta := recSet st.meta kv.1 kv.2 }
          | none => st := by
        rw [parseLine, if_neg (fun hcc => hi hcc.1), if_pos (by simp [hfm]),
          if_neg hl]
      rw [hstep, dropFm, if_neg hl]
      rcases hm : fmMatch l with - | kv
      · exact ih (i + 1) st hfm hc (Nat.succ_ne_zero i)
      · have := ih (i + 1) { st with meta := recSet st.meta kv.1 kv.2 }
          hfm hc (Nat.succ_ne_zero i)
        simpa [pushCur] using this

/-- Claim C7 (counterexample): the claim counts level-2 headings outside
code fences only, but a heading-shaped line inside the frontmatter block is
ignored by the parser while still being a level-2 heading of the document:
this input has two such headings yet yields one slide. -/
theorem headingCount_counterexample :
    (parseMarkdownSlides
        "---\ntitle: Demo\n## Oops\n---\n## Real\nHello".data).length = 1 ∧
    countH2 (splitNl "---\ntitle: Demo\n## Oops\n---\n## Real\nHello".data)
        false = 2 := by
  constructor
  · decide
  · decide

/-- Claim C7 (amended): for every Markdown document, the number of Slides
returned by `parseMarkdown` (the trailing open slide included) equals the
number of level-2 headings outside code fences and outside the leading
frontmatter block. -/
theorem parseMarkdown_slideCount (md : List Char) :
    (parseMarkdownSlides md).length =
      countH2 (stripFrontmatter (splitNl md)) false := by
  rw [parseMarkdownSlides, parseMarkdownFull]
  rcases hsp : splitNl md with - | ⟨l, ls⟩
  · exact absurd hsp (splitNl_ne_nil md)
  · rw [parseLinesFrom]
    by_cases hl : l = "---".data
    · have hstep : parseLine 0 initState l = { initState with fm := true } := by
        rw [parseLine, if_pos ⟨rfl, hl⟩]
      rw [hstep, stripFrontmatter, if_pos hl]
      have := parseLinesFrom_fm ls 1 { initState with fm := true } rfl rfl
        Nat.one_ne_zero
      simpa [pushCur, initState] using this
    · obtain ⟨k1, k2, k3⟩ :=
        parseLine_anal 0 initState l rfl (fun hc => hl hc.2)
      rw [stripFrontmatter, if_neg hl, countH2,
        parseLinesFrom_len ls 1 _ k1 Nat.one_ne_zero, k2, k3]
      simp [pushCur, initState]

/-! ## Claim C2 — the brace-balance rule -/

/-- Evaluation lemmas for single brace-scan steps. -/
theorem braceCharStep_lbrace (idx n : Nat) (issues : List LintIssue) :
    braceCharStep idx ((n : Int), issues) lbrace = (((n + 1 : Nat) : Int), issues) := by
  unfold braceCharStep
  norm_num
  omega

theorem braceCharStep_rbrace_zero (idx : Nat) (issues : List LintIssue) :
    braceCharStep idx (((0 : Nat) : Int), issues) rbrace =
      (((0 : Nat) : Int), issues ++ [closingIssue (idx + 1)]) := rfl

theorem braceCharStep_rbrace_succ (idx k : Nat) (issues : List LintIssue) :
    braceCharStep idx (((k + 1 : Nat) : Int), issues) rbrace =
      (((k : Nat) : Int), issues) := by
  unfold braceCharStep
  norm_num [show ¬ (rbrace = lbrace) from by decide]

theorem braceCharStep_other (idx n : Nat) (issues : List LintIssue)
    {c : Char} (h1 : c ≠ lbrace) (h2 : c ≠ rbrace) :
    braceCharStep idx ((n : Int), issues) c = ((n : Int), issues) := by
  simp only [braceCharStep]
  rw [if_neg h1, if_neg h2, if_neg (by omega)]

theorem braceN_cons_l (rest : List Char) (n : Nat) :
    braceN (lbrace :: rest) n = braceN rest (n + 1) := by
  rw [braceN, if_pos rfl]

theorem braceN_cons_r (rest : List Char) (n : Nat) :
    braceN (rbrace :: rest) n = braceN rest (n - 1) := by
  rw [braceN, if_neg (by decide : ¬ (rbrace = lbrace)), if_pos rfl]

theorem braceN_cons_o (rest : List Char) (n : Nat) {c : Char}
    (h1 : c ≠ lbrace) (h2 : c ≠ rbrace) :
    braceN (c :: rest) n = braceN rest n := by
  rw [braceN, if_neg h1, if_neg h2]

theorem braceM_cons_l (rest : List Char) (n : Nat) :
    braceM (lbrace :: rest) n = braceM rest (n + 1) := by
  rw [braceM, if_neg (fun h => absurd h.1 (by decide)), if_pos rfl]
  omega

theorem braceM_cons_r_zero (rest : List Char) :
    braceM (rbrace :: rest) 0 = 1 + braceM rest 0 := by
  rw [braceM, if_pos ⟨rfl, rfl⟩, if_neg (by decide : ¬ (rbrace = lbrace)),
    if_pos rfl]

theorem braceM_cons_r_succ (rest : List Char) (k : Nat) :
    braceM (rbrace :: rest) (k + 1) = braceM rest k := by
  rw [braceM, if_neg (fun h => Nat.succ_ne_zero k h.2),
    if_neg (by decide : ¬ (rbrace = lbrace)), if_pos rfl]
  simp

theorem braceM_cons_o (rest : List Char) (n : Nat) {c : Char}
    (h1 : c ≠ lbrace) (h2 : c ≠ rbrace) :
    braceM (c :: rest) n = braceM rest n := by
  rw [braceM, if_neg (fun h => h2 h.1), if_neg h1, if_neg h2]
  omega

/-- The character loop of the brace scan realises the spec's counting: the
final counter is the unmatched-open count, and one closing-brace issue is
appended (at this line) per unmatched close. -/
theorem braceChar_fold :
    ∀ (cs : List Char) (idx n : Nat) (issues : List LintIssue),
      cs.foldl (braceCharStep idx) ((n : Int), issues) =
        ((braceN cs n : Int),
          issues ++ List.replicate (braceM cs n) (closingIssue (idx + 1))) := by
  intro cs
  induction cs with
  | nil => intro idx n issues; simp [braceN, braceM]
  | cons c rest ih =>
    intro idx n issues
    rw [List.foldl_cons]
    by_cases h1 : c = lbrace
    · subst h1
      rw [braceCharStep_lbrace, ih, braceN_cons_l, braceM_cons_l]
    · by_cases h2 : c = rbrace
      · subst h2
        rcases n with - | k
        · rw [braceCharStep_rbrace_zero, ih, braceN_cons_r, braceM_cons_r_zero]
          simp [List.replicate_add]
        · rw [braceCharStep_rbrace_succ, ih, braceN_cons_r, braceM_cons_r_succ]
          simp
      · rw [braceCharStep_other idx n issues h1 h2, ih,
          braceN_cons_o rest n h1 h2, braceM_cons_o rest n h1 h2]

/-- The per-line loop of the brace scan appends `closingsFor` and computes
`linesN`. -/
theorem braceScan_fold :
    ∀ (ls : List (List Char)) (idx n : Nat) (issues : List LintIssue),
      braceScanLines ls idx ((n : Int), issues) =
        ((linesN ls n : Int), issues ++ closingsFor ls idx n) := by
  intro ls
  induction ls with
  | nil => intro idx n issues; simp [braceScanLines, linesN, closingsFor]
  | cons l rest ih =>
    intro idx n issues
    rw [braceScanLines, braceChar_fold, ih, linesN, closingsFor,
      List.append_assoc]

theorem closingsFor_msg :
    ∀ (ls : List (List Char)) (idx n : Nat),
      ∀ i ∈ closingsFor ls idx n,
        i.message = LintMessage.unmatchedClosingBrace ∧ idx + 1 ≤ i.line := by
  intro ls
  induction ls with
  | nil => intro idx n i hi; cases hi
  | cons l rest ih =>
    intro idx n i hi
    rw [closingsFor] at hi
    rcases List.mem_append.mp hi with hi | hi
    · rw [List.eq_of_mem_replicate hi]
      exact ⟨rfl, le_refl _⟩
    · obtain ⟨hm, hl⟩ := ih (idx + 1) _ i hi
      exact ⟨hm, by omega⟩

theorem closingsFor_sorted :
    ∀ (ls : List (List Char)) (idx n : Nat),
      List.Pairwise (fun a b => a.line ≤ b.line) (closingsFor ls idx n) := by
  intro ls
  induction ls with
  | nil => intro idx n; exact List.Pairwise.nil
  | cons l rest ih =>
    intro idx n
    rw [closingsFor]
    rw [List.pairwise_append]
    refine ⟨List.pairwise_replicate.mpr (Or.inr (le_refl _)), ih (idx + 1) _, ?_⟩
    · intro a ha b hb
      rw [List.eq_of_mem_replicate ha]
      have := (closingsFor_msg rest (idx + 1) _ b hb).2
      simpa [closingIssue] using le_trans (by omega) this

theorem closingsFor_length :
    ∀ (ls : List (List Char)) (idx n : Nat),
      (closingsFor ls idx n).length = linesM ls n := by
  intro ls
  induction ls with
  | nil => intro idx n; rfl
  | cons l rest ih =>
    intro idx n
    rw [closingsFor, linesM, List.length_append, List.length_replicate,
      ih (idx + 1)]

theorem braceN_append (xs ys : List Char) (n : Nat) :
    braceN (xs ++ ys) n = braceN ys (braceN xs n) := by
  induction xs generalizing n with
  | nil => rfl
  | cons c rest ih => rw [List.cons_append, braceN, braceN, ih]

theorem braceM_append (xs ys : List Char) (n : Nat) :
    braceM (xs ++ ys) n = braceM xs n + braceM ys (braceN xs n) := by
  induction xs generalizing n with
  | nil => simp [braceM, braceN]
  | cons c rest ih =>
    rw [List.cons_append, braceM, braceM, braceN, ih]
    omega

theorem linesN_join (ls : List (List Char)) (n : Nat) :
    braceN ((ls.map stripComment).flatten) n = linesN ls n := by
  induction ls generalizing n with
  | nil => rfl
  | cons l rest ih =>
    rw [List.map_cons, List.flatten_cons, braceN_append, linesN, ih]

theorem linesM_join (ls : List (List Char)) (n : Nat) :
    braceM ((ls.map stripComment).flatten) n = linesM ls n := by
  induction ls generalizing n with
  | nil => rfl
  | cons l rest ih =>
    rw [List.map_cons, List.flatten_cons, braceM_append, linesM, ih]

/-- Claim C2: for input whose comment-stripped text leaves `N` unmatched
opening and `M` unmatched closing braces, the brace-balance rule emits
exactly `M` "unmatched closing brace" errors, in line order (each emitted
at the line of its unmatched close, where the decrement would have driven
the counter negative and reset it to zero), and when `N > M` it emits
exactly one `N unclosed brace(s)` error anchored at the last line. -/
theorem braceBalance_report (lines : List (List Char)) :
    ((unmatchedBraces lines).filter isClosingMsg).length =
      (braceDebt ((lines.map stripComment).flatten)).2 ∧
    List.Pairwise (fun a b => a.line ≤ b.line)
      ((unmatchedBraces lines).filter isClosingMsg) ∧
    ((braceDebt ((lines.map stripComment).flatten)).1 >
        (braceDebt ((lines.map stripComment).flatten)).2 →
      (unmatchedBraces lines).filter isUnclosedMsg =
        [⟨lines.length, .error,
          .unclosedBraces (braceDebt ((lines.map stripComment).flatten)).1,
          .braceBalance⟩]) := by
  have hdebt1 : (braceDebt ((lines.map stripComment).flatten)).1 =
      linesN lines 0 := linesN_join lines 0
  have hdebt2 : (braceDebt ((lines.map stripComment).flatten)).2 =
      linesM lines 0 := linesM_join lines 0
  have hscan : braceScanLines lines 0 (0, []) =
      ((linesN lines 0 : Int), closingsFor lines 0 0) := by
    have := braceScan_fold lines 0 0 []
    simpa using this
  have hfilterC : (closingsFor lines 0 0).filter isClosingMsg =
      closingsFor lines 0 0 := by
    rw [List.filter_eq_self]
    intro i hi
    have := (closingsFor_msg lines 0 0 i hi).1
    simp [isClosingMsg, this]
  have hfilterU : (closingsFor lines 0 0).filter isUnclosedMsg = [] := by
    rw [List.filter_eq_nil_iff]
    intro i hi
    have := (closingsFor_msg lines 0 0 i hi).1
    simp [isUnclosedMsg, this]
  rw [hdebt1, hdebt2, unmatchedBraces, hscan]
  by_cases hpos : ((linesN lines 0 : Int)) > 0
  · rw [if_pos hpos]
    refine ⟨?_, ?_, ?_⟩
    · rw [List.filter_append, hfilterC, List.length_append]
      have : ([(⟨lines.length, .error,
          .unclosedBraces (linesN lines 0 : Int).toNat, .braceBalance⟩ :
            LintIssue)].filter isClosingMsg) = [] := by
        simp [isClosingMsg]
      rw [this]
      simpa using closingsFor_length lines 0 0
    · rw [List.filter_append, hfilterC]
      have : ([(⟨lines.length, .error,
          .unclosedBraces (linesN lines 0 : Int).toNat, .braceBalance⟩ :
            LintIssue)].filter isClosingMsg) = [] := by
        simp [isClosingMsg]
      rw [this, List.append_nil]
      exact closingsFor_sorted lines 0 0
    · intro hNM
      rw [List.filter_append, hfilterU]
      simp [isUnclosedMsg]
  · rw [if_neg hpos]
    have hN0 : linesN lines 0 = 0 := by omega
    refine ⟨?_, ?_, ?_⟩
    · rw [hfilterC]
      exact closingsFor_length lines 0 0
    · rw [hfilterC]
      exact closingsFor_sorted lines 0 0
    · intro hNM
      omega

/-- Claim C2 instantiated: the input `["}{", "{"]` has `N = 2` unmatched
opens and `M = 1` unmatched closes, and the rule emits one `2 unclosed
brace(s)` error at line 2. -/
theorem braceBalance_report_witness :
    (unmatchedBraces ["\x7d\x7b".data, "\x7b".data]).filter isUnclosedMsg =
      [⟨2, .error, .unclosedBraces 2, .braceBalance⟩] := by
  have h := (braceBalance_report ["\x7d\x7b".data, "\x7b".data]).2.2
    (by decide)
  have e : (braceDebt (((["\x7d\x7b".data, "\x7b".data]).map
      stripComment).flatten)).1 = 2 := by decide
  rw [e] at h
  exact h

/-! ## Claim C8 — the lint exit contract -/

theorem isError_iff (i : LintIssue) :
    isError i = true ↔ i.severity = Severity.error := by
  cases h : i.severity <;> simp [isError, h]

/-- Claim C8: the `lint` command signals failure (non-zero exit code) if
and only if at least one error-severity issue was produced for the input;
warning-severity issues alone never signal failure. -/
theorem lintExit_iff_error (content : List Char) :
    lintExitCode content ≠ 0 ↔
      ∃ i ∈ lintReport content, i.severity = Severity.error := by
  have key : 0 < ((lintReport content).filter isError).length ↔
      ∃ i ∈ lintReport content, i.severity = Severity.error := by
    rw [List.length_pos]
    constructor
    · intro hne
      obtain ⟨i, hi⟩ := List.exists_mem_of_ne_nil _ hne
      exact ⟨i, (List.mem_filter.mp hi).1,
        (isError_iff i).mp (List.mem_filter.mp hi).2⟩
    · rintro ⟨i, hi, hsev⟩ hnil
      have hmem : i ∈ (lintReport content).filter isError :=
        List.mem_filter.mpr ⟨hi, (isError_iff i).mpr hsev⟩
      rw [hnil] at hmem
      cases hmem
  rw [lintExitCode]
  by_cases h : ((lintReport content).filter isError).length > 0
  · rw [if_pos h]
    simpa using key.mp h
  · rw [if_neg h]
    simp only [ne_eq, not_true_eq_false, false_iff]
    intro hex
    exact h (key.mpr hex)

/-! ## Claim C9 — diagram node/edge registration -/

theorem recGet_set_same (m : List (List Char × List Char)) (k v : List Char) :
    recGet (recSet m k v) k = some v := by
  induction m with
  | nil => simp [recSet, recGet]
  | cons p rest ih =>
    by_cases h : p.1 = k
    · simp [recSet, h, recGet]
    · simp [recSet, h, recGet, ih]

theorem recGet_set_other (m : List (List Char × List Char))
    (k v k' : List Char) (h : k' ≠ k) :
    recGet (recSet m k v) k' = recGet m k' := by
  induction m with
  | nil =>
    simp only [recSet, recGet]
    rw [if_neg (fun hh => h hh.symm)]
  | cons p rest ih =>
    by_cases hp : p.1 = k
    · simp only [recSet, if_pos hp, recGet, hp]
      rw [if_neg (fun hh => h hh.symm), if_neg (fun hh => h hh.symm)]
    · simp only [recSet, if_neg hp, recGet]
      by_cases hp' : p.1 = k'
      · rw [if_pos hp', if_pos hp']
      · rw [if_neg hp', if_neg hp', ih]

theorem recHas_set_same (m : List (List Char × List Char)) (k v : List Char) :
    recHas (recSet m k v) k = true := by
  induction m with
  | nil => simp [recSet, recHas]
  | cons p rest ih =>
    by_cases h : p.1 = k
    · simp [recSet, h, recHas]
    · simp [recSet, h, recHas, ih]

theorem recHas_set_other (m : List (List Char × List Char))
    (k v k' : List Char) (h : k' ≠ k) :
    recHas (recSet m k v) k' = recHas m k' := by
  induction m with
  | nil =>
    simp only [recSet, recHas, Bool.or_false]
    simp only [decide_eq_false (fun hh : k = k' => h hh.symm)]
  | cons p rest ih =>
    by_cases hp : p.1 = k
    · simp only [recSet, if_pos hp, recHas, hp, ih]
    · simp only [recSet, if_neg hp, recHas, ih]

theorem recKeys_set (m : List (List Char × List Char)) (k v : List Char) :
    (recSet m k v).map (fun p => p.1) =
      if recHas m k = true then m.map (fun p => p.1)
      else m.map (fun p => p.1) ++ [k] := by
  induction m with
  | nil => simp [recSet, recHas]
  | cons p rest ih =>
    by_cases h : p.1 = k
    · simp [recSet, h, recHas]
    · simp only [recSet, if_neg h, List.map_cons, recHas, ih]
      by_cases hr : recHas rest k = true
      · simp [hr, h]
      · simp [hr, h]

/-- Claim C9 (counterexample): the claim says registration never overwrites
a label already recorded for an id.  Processing `A[One] --> B` records
`A ↦ One`; the subsequent edge line `A[Two] --> B` overwrites it to
`A ↦ Two`. -/
theorem mermaidLabel_overwritten :
    (mermaidGraph "graph LR\nA[One] --> B".data).nodes =
      [("A".data, "One".data), ("B".data, "B".data)] ∧
    (mermaidGraph "graph LR\nA[One] --> B\nA[Two] --> B".data).nodes =
      [("A".data, "Two".data), ("B".data, "B".data)] := by
  constructor
  · decide
  · decide

/-- Claim C9 (amended): for every edge line — self-loops `A --> A`
included — both endpoint ids end up registered and the edge is appended.
The final label of every key is characterised pointwise: an explicit
`to`-label wins, then an explicit `from`-label, and an endpoint with no
explicit label keeps any label already recorded and otherwise gets its id
as label (the defaulting never overwrites).  Newly seen ids are appended
to the key order, each at most once: the candidates arrive in from-to
order except that a labelled `to` endpoint precedes an unlabelled `from`
endpoint (explicit registrations run before defaulted ones), and a
candidate is appended iff it is neither already recorded nor equal to the
earlier candidate. -/
theorem mermaidEdge_registration (nodes edges : List (List Char × List Char))
    (l fromId toId : List Char) (fromLabel toLabel : Option (List Char))
    (hmatch : edgeMatchLine l = some (fromId, fromLabel, toId, toLabel)) :
    (recHas (mermaidLineStep ⟨nodes, edges⟩ l).nodes fromId = true ∧
      recHas (mermaidLineStep ⟨nodes, edges⟩ l).nodes toId = true) ∧
    (mermaidLineStep ⟨nodes, edges⟩ l).edges = edges ++ [(fromId, toId)] ∧
    (mermaidLineStep ⟨nodes, edges⟩ l).nodes.map (fun p => p.1) =
      nodes.map (fun p => p.1) ++
        (if recHas nodes
            (if fromLabel.isNone && toLabel.isSome then toId else fromId) = true
         then []
         else [if fromLabel.isNone && toLabel.isSome then toId else fromId]) ++
        (if recHas nodes
            (if fromLabel.isNone && toLabel.isSome then fromId else toId) = true
            ∨ (if fromLabel.isNone && toLabel.isSome then fromId else toId)
              = (if fromLabel.isNone && toLabel.isSome then toId else fromId)
         then []
         else [if fromLabel.isNone && toLabel.isSome then fromId else toId]) ∧
    ∀ k, recGet (mermaidLineStep ⟨nodes, edges⟩ l).nodes k =
      (if k = toId ∧ toLabel.isSome = true then toLabel
       else if k = fromId ∧ fromLabel.isSome = true then fromLabel
       else if k = fromId ∨ k = toId then
         (if recHas nodes k = true then recGet nodes k else some k)
       else recGet nodes k) := by
  by_cases hft : fromId = toId
  · subst hft
    rcases fromLabel with - | fx <;> rcases toLabel with - | tx <;>
      by_cases hf : recHas nodes fromId = true <;>
      exact ⟨⟨by simp_all [mermaidLineStep, recGet_set_same, recGet_set_other,
          recHas_set_same, recHas_set_other, recKeys_set],
        by simp_all [mermaidLineStep, recGet_set_same, recGet_set_other,
          recHas_set_same, recHas_set_other, recKeys_set]⟩,
        by simp_all [mermaidLineStep, recGet_set_same, recGet_set_other,
          recHas_set_same, recHas_set_other, recKeys_set],
        by simp_all [mermaidLineStep, recGet_set_same, recGet_set_other,
          recHas_set_same, recHas_set_other, recKeys_set],
        fun k => by
          by_cases h1 : k = fromId <;>
          simp_all [mermaidLineStep, recGet_set_same, recGet_set_other,
            recHas_set_same, recHas_set_other, recKeys_set]⟩
  · have hne' : toId ≠ fromId := fun h => hft h.symm
    rcases fromLabel with - | fx <;> rcases toLabel with - | tx <;>
      by_cases hf : recHas nodes fromId = true <;>
      by_cases ht : recHas nodes toId = true <;>
      exact ⟨⟨by simp_all [mermaidLineStep, recGet_set_same, recGet_set_other,
          recHas_set_same, recHas_set_other, recKeys_set],
        by simp_all [mermaidLineStep, recGet_set_same, recGet_set_other,
          recHas_set_same, recHas_set_other, recKeys_set]⟩,
        by simp_all [mermaidLineStep, recGet_set_same, recGet_set_other,
          recHas_set_same, recHas_set_other, recKeys_set],
        by simp_all [mermaidLineStep, recGet_set_same, recGet_set_other,
          recHas_set_same, recHas_set_other, recKeys_set],
        fun k => by
          by_cases h1 : k = fromId <;> by_cases h2 : k = toId <;>
          simp_all [mermaidLineStep, recGet_set_same, recGet_set_other,
            recHas_set_same, recHas_set_other, recKeys_set]⟩

/-- Claim C9 amended theorem instantiated at the self-loop edge line
`A --> A[Lab]`, starting from an empty graph: the single endpoint id is
registered once, with the explicit `to`-label. -/
theorem mermaidEdge_registration_witness :
    (recHas (mermaidLineStep ⟨[], []⟩ "A --> A[Lab]".data).nodes "A".data = true ∧
      recHas (mermaidLineStep ⟨[], []⟩ "A --> A[Lab]".data).nodes "A".data = true) ∧
    (mermaidLineStep ⟨[], []⟩ "A --> A[Lab]".data).edges =
      [] ++ [("A".data, "A".data)] ∧
    (mermaidLineStep ⟨[], []⟩ "A --> A[Lab]".data).nodes.map (fun p => p.1) =
      ([] : List (List Char × List Char)).map (fun p => p.1) ++
        (if recHas []
            (if (none : Option (List Char)).isNone && (some "Lab".data).isSome
             then "A".data else "A".data) = true
         then []
         else [if (none : Option (List Char)).isNone && (some "Lab".data).isSome
               then "A".data else "A".data]) ++
        (if recHas []
            (if (none : Option (List Char)).isNone && (some "Lab".data).isSome
             then "A".data else "A".data) = true
            ∨ (if (none : Option (List Char)).isNone && (some "Lab".data).isSome
               then "A".data else "A".data)
              = (if (none : Option (List Char)).isNone && (some "Lab".data).isSome
                 then "A".data else "A".data)
         then []
         else [if (none : Option (List Char)).isNone && (some "Lab".data).isSome
               then "A".data else "A".data]) ∧
    ∀ k, recGet (mermaidLineStep ⟨[], []⟩ "A --> A[Lab]".data).nodes k =
      (if k = "A".data ∧ (some "Lab".data).isSome = true then some "Lab".data
       else if k = "A".data ∧ (none : Option (List Char)).isSome = true
       then (none : Option (List Char))
       else if k = "A".data ∨ k = "A".data then
         (if recHas [] k = true then recGet [] k else some k)
       else recGet [] k) :=
  mermaidEdge_registration [] [] "A --> A[Lab]".data "A".data "A".data
    none (some "Lab".data) (by decide)

/-! ## Claim C10 — frame extraction requires a brace group -/

theorem findSub_decomp {pat l : List Char} {q : List Char × List Char}
    (h : findSub pat l = some q) : l = q.1 ++ pat ++ q.2 := by
  induction l generalizing q with
  | nil =>
    rw [findSub] at h
    by_cases hp : pat = ([] : List Char)
    · rw [if_pos hp] at h
      injection h with h
      subst h
      simp [hp]
    · rw [if_neg hp] at h
      cases h
  | cons c rest ih =>
    rw [findSub] at h
    by_cases hp : pfx pat (c :: rest) = true
    · rw [if_pos hp] at h
      injection h with h
      subst h
      simpa using pfx_append_drop hp
    · rw [if_neg hp] at h
      rcases hr : findSub pat rest with - | q'
      · rw [hr] at h; cases h
      · rw [hr] at h
        injection h with h
        subst h
        have := ih hr
        simp only [List.cons_append]
        rw [← this]

theorem bracketCloses_mem {r2 r' : List Char} (h : r' ∈ bracketCloses r2) :
    ∃ inner, r2 = inner ++ ']' :: r' ∧ '\n' ∉ inner := by
  induction r2 generalizing r' with
  | nil => cases h
  | cons c rest ih =>
    rw [bracketCloses] at h
    by_cases hc : c = '\n'
    · rw [if_pos hc] at h; cases h
    · rw [if_neg hc] at h
      rcases List.mem_append.mp h with h | h
      · by_cases hb : c = ']'
        · rw [if_pos hb] at h
          rcases List.mem_singleton.mp h with rfl
          exact ⟨[], by simp [hb], by simp⟩
        · rw [if_neg hb] at h; cases h
      · obtain ⟨inner, he, hn⟩ := ih h
        refine ⟨c :: inner, by simp [he], ?_⟩
        simp only [List.mem_cons, not_or]
        exact ⟨fun hh => hc hh.symm, hn⟩

theorem frameChoices_mem {r c' : List Char} (h : c' ∈ frameChoices r) :
    r = c' ∨ ∃ inner, r = '[' :: (inner ++ ']' :: c') ∧ '\n' ∉ inner := by
  rcases r with - | ⟨d, r2⟩
  · rw [show frameChoices [] = [([] : List Char)] from rfl] at h
    rcases List.mem_singleton.mp h with rfl
    exact Or.inl rfl
  · rw [show frameChoices (d :: r2) =
        (if d = '[' then bracketCloses r2 else []) ++ [d :: r2] from rfl] at h
    rcases List.mem_append.mp h with h | h
    · by_cases hd : d = '['
      · rw [if_pos hd] at h
        obtain ⟨inner, he, hn⟩ := bracketCloses_mem h
        exact Or.inr ⟨inner, by simp [hd, he], hn⟩
      · rw [if_neg hd] at h; cases h
    · exact Or.inl (List.mem_singleton.mp h).symm

theorem firstFrameCont_mem {cs : List (List Char)}
    {x : List Char × List Char × List Char} (h : firstFrameCont cs = some x) :
    ∃ c ∈ cs, frameContAt c = some x := by
  induction cs with
  | nil => cases h
  | cons c rest ih =>
    rw [firstFrameCont] at h
    rcases hc : frameContAt c with - | y
    · rw [hc] at h
      obtain ⟨c', hc', he⟩ := ih h
      exact ⟨c', List.mem_cons_of_mem _ hc', he⟩
    · rw [hc] at h
      injection h with h
      subst h
      exact ⟨c, List.mem_cons_self _ _, hc⟩

theorem frameContAt_cons (d : Char) (r3 : List Char) :
    frameContAt (d :: r3) =
      (if d = lbrace then
        if (r3.dropWhile (fun e => e ≠ rbrace)).head? = some rbrace then
          match findSub "\\end\x7bframe\x7d".data
              ((r3.dropWhile (fun e => e ≠ rbrace)).tail) with
          | some q => some (r3.takeWhile (fun e => e ≠ rbrace), q.1, q.2)
          | none => none
        else none
      else none) := rfl

theorem frameContAt_decomp {c : List Char} {t b a : List Char}
    (h : frameContAt c = some (t, b, a)) :
    c = lbrace :: (t ++ rbrace :: (b ++ ("\\end\x7bframe\x7d".data ++ a))) := by
  rcases c with - | ⟨d, r3⟩
  · cases h
  · rw [frameContAt_cons] at h
    by_cases hd : d = lbrace
    · rw [if_pos hd] at h
      rcases hr4 : r3.dropWhile (fun e => e ≠ rbrace) with - | ⟨e, r5⟩
      · rw [hr4] at h
        rw [if_neg (by simp)] at h
        cases h
      · rw [hr4] at h
        simp only [List.head?_cons, List.tail_cons] at h
        by_cases he : e = rbrace
        · rw [if_pos (by rw [he])] at h
          rcases hf : findSub "\\end\x7bframe\x7d".data r5 with - | q
          · simp only [hf] at h
            cases h
          · simp only [hf] at h
            injection h with h
            injection h with h1 h2
            injection h2 with h2 h3
            subst h1
            subst h2
            subst h3
            have hsplit : r3.takeWhile (fun e => e ≠ rbrace) ++
                r3.dropWhile (fun e => e ≠ rbrace) = r3 :=
              List.takeWhile_append_dropWhile _ _
            have hfq := findSub_decomp hf
            rw [hd]
            congr 1
            conv_lhs => rw [← hsplit, hr4]
            rw [he, hfq]
            simp
        · rw [if_neg (fun hh => he (Option.some.inj hh))] at h
          cases h
    · rw [if_neg hd] at h
      cases h

theorem frameTryAt_decomp {cs t b a : List Char}
    (h : frameTryAt cs = some (t, b, a)) :
    ∃ opt, cs = "\\begin\x7bframe\x7d".data ++
        (opt ++ lbrace :: (t ++ rbrace :: (b ++ ("\\end\x7bframe\x7d".data ++ a)))) ∧
      (opt = [] ∨ ∃ inner, opt = '[' :: (inner ++ [']']) ∧ '\n' ∉ inner) := by
  rw [frameTryAt] at h
  by_cases hp : pfx "\\begin\x7bframe\x7d".data cs = true
  · rw [if_pos hp] at h
    obtain ⟨c', hc', he⟩ := firstFrameCont_mem h
    have hdec := frameContAt_decomp he
    rcases frameChoices_mem hc' with hr | ⟨inner, hr, hn⟩
    · refine ⟨[], ?_, Or.inl rfl⟩
      rw [List.nil_append, ← hdec, ← hr]
      exact pfx_append_drop hp
    · refine ⟨'[' :: (inner ++ [']']), ?_,
        Or.inr ⟨inner, rfl, hn⟩⟩
      have : cs = "\\begin\x7bframe\x7d".data ++ (cs.drop 13) :=
        pfx_append_drop hp
      rw [this, hr, hdec]
      simp
  · rw [if_neg hp] at h; cases h

theorem scanFramesF_sound :
    ∀ (fuel : Nat) (content t b : List Char),
      (t, b) ∈ scanFramesF fuel content →
      ∃ pre opt rest2,
        content = pre ++ ("\\begin\x7bframe\x7d".data ++
          (opt ++ lbrace :: (t ++ rbrace :: rest2))) ∧
        (opt = [] ∨ ∃ inner, opt = '[' :: (inner ++ [']']) ∧ '\n' ∉ inner) := by
  intro fuel
  induction fuel with
  | zero => intro content t b h; cases h
  | succ f ih =>
    intro content t b h
    rcases content with - | ⟨c, rest⟩
    · cases h
    · rw [scanFramesF] at h
      rcases htry : frameTryAt (c :: rest) with - | ⟨t0, b0, after⟩
      · rw [htry] at h
        obtain ⟨pre, opt, rest2, he, hs⟩ := ih rest t b h
        exact ⟨c :: pre, opt, rest2, by simp [he], hs⟩
      · rw [htry] at h
        obtain ⟨opt0, hdec, hshape0⟩ := frameTryAt_decomp htry
        rcases List.mem_cons.mp h with h | h
        · injection h with h1 h2
          subst h1; subst h2
          exact ⟨[], opt0, b ++ ("\\end\x7bframe\x7d".data ++ after),
            by simpa using hdec, hshape0⟩
        · obtain ⟨pre, opt, rest2, he, hs⟩ := ih after t b h
          refine ⟨"\\begin\x7bframe\x7d".data ++
            (opt0 ++ lbrace :: (t0 ++ rbrace :: (b0 ++
              "\\end\x7bframe\x7d".data))) ++ pre, opt, rest2, ?_, hs⟩
          rw [hdec, he]
          simp

/-- Claim C10: the HTML exporter's frame extraction only matches
begin-frame markers followed (after the optional bracketed option) by a
brace-delimited title: every extracted slide arises at an occurrence of
`\begin{frame}` followed by an optional single-line `[…]` group and then
`{title}`.  Consequently, on a generated-shape document whose title-page
and closing frames carry no brace group, only the braced frame yields a
slide, so the bare frames are absent from the exported sections. -/
theorem exportFrames_requireBraceGroup :
    (∀ (content t b : List Char), (t, b) ∈ parseLatexFrames content →
      ∃ pre opt rest2,
        content = pre ++ ("\\begin\x7bframe\x7d".data ++
          (opt ++ lbrace :: (t ++ rbrace :: rest2))) ∧
        (opt = [] ∨ ∃ inner, opt = '[' :: (inner ++ [']']) ∧ '\n' ∉ inner)) ∧
    parseLatexFrames demoFrameDoc = [("T".data, "\nbody\n".data)] := by
  constructor
  · intro content t b hmem
    exact scanFramesF_sound content.length content t b hmem
  · decide

/-- Claim C10 instantiated: the braced frame of the demo document is
extracted, and its title is brace-delimited right after a begin-frame
marker. -/
theorem exportFrames_requireBraceGroup_witness :
    ∃ pre opt rest2,
      demoFrameDoc = pre ++ ("\\begin\x7bframe\x7d".data ++
        (opt ++ lbrace :: ("T".data ++ rbrace :: rest2))) ∧
      (opt = [] ∨ ∃ inner, opt = '[' :: (inner ++ [']']) ∧ '\n' ∉ inner) :=
  exportFrames_requireBraceGroup.1 demoFrameDoc "T".data "\nbody\n".data
    (by decide)

/-! ## Claim C1 — idempotence of escaping on inline-formatter output -/

theorem replaceAllF_eq_self (pat rep : List Char) (pc : Char → Bool) :
    ∀ (fuel : Nat) (s : List Char),
      (∃ c ∈ pat, pc c = true) → (∀ c ∈ s, pc c = false) →
      replaceAllF pat rep fuel s = s := by
  intro fuel
  induction fuel with
  | zero => intro s hp hs; rfl
  | succ f ih =>
    intro s hp hs
    rcases s with - | ⟨c, rest⟩
    · rfl
    · rw [replaceAllF]
      rw [if_neg ?hcond]
      case hcond =>
        rintro ⟨-, hpfx⟩
        obtain ⟨c0, hc0, hpc0⟩ := hp
        have := hs c0 (pfx_mem hpfx hc0)
        rw [this] at hpc0
        cases hpc0
      rw [ih rest hp (fun d hd => hs d (List.mem_cons_of_mem c hd))]

theorem replaceAllF_all (pat rep : List Char) (q : Char → Prop) :
    ∀ (fuel : Nat) (s : List Char),
      (∀ c ∈ s, q c) → (∀ c ∈ rep, q c) →
      ∀ c ∈ replaceAllF pat rep fuel s, q c := by
  intro fuel
  induction fuel with
  | zero => intro s hs hr c hc; exact hs c hc
  | succ f ih =>
    intro s hs hr c hc
    rcases s with - | ⟨d, rest⟩
    · cases hc
    · rw [replaceAllF] at hc
      by_cases hcond : pat ≠ [] ∧ pfx pat (d :: rest) = true
      · rw [if_pos hcond] at hc
        rcases List.mem_append.mp hc with hc | hc
        · exact hr c hc
        · refine ih _ (fun e he => ?_) hr c hc
          exact hs e (List.mem_cons_of_mem d (List.mem_of_mem_drop he))
      · rw [if_neg hcond] at hc
        rcases List.mem_cons.mp hc with rfl | hc
        · exact hs c (List.mem_cons_self _ _)
        · exact ih rest (fun e he => hs e (List.mem_cons_of_mem d he)) hr c hc

theorem flatReplaceChar_eq_self (c : Char) (rep s : List Char)
    (h : c ∉ s) : flatReplaceChar c rep s = s := by
  induction s with
  | nil => rfl
  | cons d rest ih =>
    rw [flatReplaceChar,
      if_neg (fun hh => h (by rw [← hh]; exact List.mem_cons_self d rest)),
      ih (fun hh => h (List.mem_cons_of_mem d hh))]
    rfl

theorem flatReplaceChar_all (c : Char) (rep s : List Char)
    (q : Char → Prop) (hs : ∀ x ∈ s, q x) (hr : ∀ x ∈ rep, q x) :
    ∀ x ∈ flatReplaceChar c rep s, q x := by
  induction s with
  | nil => intro x hx; cases hx
  | cons d rest ih =>
    intro x hx
    rw [flatReplaceChar] at hx
    rcases List.mem_append.mp hx with hx | hx
    · by_cases hd : d = c
      · rw [if_pos hd] at hx
        exact hr x hx
      · rw [if_neg hd] at hx
        rcases List.mem_singleton.mp hx with rfl
        exact hs x (List.mem_cons_self _ _)
    · exact ih (fun e he => hs e (List.mem_cons_of_mem d he)) x hx

theorem escFold_eq_self :
    ∀ (L : List (Char × List Char)) (s : List Char),
      (∀ p ∈ L, ∀ x ∈ s, x ≠ p.1) →
      L.foldl (fun u p => flatReplaceChar p.1 p.2 u) s = s := by
  intro L
  induction L with
  | nil => intro s h; rfl
  | cons p rest ih =>
    intro s h
    rw [List.foldl_cons,
      flatReplaceChar_eq_self p.1 p.2 s
        (fun hmem => h p (List.mem_cons_self _ _) p.1 hmem rfl)]
    exact ih s (fun p' hp' x hx => h p' (List.mem_cons_of_mem p hp') x hx)

theorem escFold_all :
    ∀ (L : List (Char × List Char)) (s : List Char) (q : Char → Prop),
      (∀ x ∈ s, q x) → (∀ p ∈ L, ∀ x ∈ p.2, q x) →
      ∀ x ∈ L.foldl (fun u p => flatReplaceChar p.1 p.2 u) s, q x := by
  intro L
  induction L with
  | nil => intro s q hs hL x hx; exact hs x hx
  | cons p rest ih =>
    intro s q hs hL x hx
    rw [List.foldl_cons] at hx
    refine ih _ q
      (flatReplaceChar_all p.1 p.2 s q hs (hL p (List.mem_cons_self _ _)))
      (fun p' hp' => hL p' (List.mem_cons_of_mem p hp')) x hx

theorem emojiFold_eq_self :
    ∀ (L : List (List Char × List Char)) (s : List Char) (pc : Char → Bool),
      (∀ p ∈ L, ∃ c ∈ p.1, pc c = true) → (∀ c ∈ s, pc c = false) →
      L.foldl (fun t p => replaceAll p.1 p.2 t) s = s := by
  intro L
  induction L with
  | nil => intro s pc hL hs; rfl
  | cons p rest ih =>
    intro s pc hL hs
    rw [List.foldl_cons, replaceAll,
      replaceAllF_eq_self p.1 p.2 pc s.length s
        (hL p (List.mem_cons_self _ _)) hs]
    exact ih s pc (fun p' hp' => hL p' (List.mem_cons_of_mem p hp')) hs

theorem emojiFold_all :
    ∀ (L : List (List Char × List Char)) (s : List Char) (q : Char → Prop),
      (∀ x ∈ s, q x) → (∀ p ∈ L, ∀ x ∈ p.2, q x) →
      ∀ x ∈ L.foldl (fun t p => replaceAll p.1 p.2 t) s, q x := by
  intro L
  induction L with
  | nil => intro s q hs hL x hx; exact hs x hx
  | cons p rest ih =>
    intro s q hs hL x hx
    rw [List.foldl_cons] at hx
    refine ih _ q ?_ (fun p' hp' => hL p' (List.mem_cons_of_mem p hp')) x hx
    intro e he
    exact replaceAllF_all p.1 p.2 q s.length s hs
      (hL p (List.mem_cons_self _ _)) e he

/-- Replacing the single-character pattern `[c0]` removes every occurrence
of `c0` (whatever the fuel), provided the replacement avoids `c0`. -/
theorem replaceAllF_single_removes (c0 : Char) (rep : List Char)
    (hrep : ∀ x ∈ rep, x ≠ c0) :
    ∀ (fuel : Nat) (s : List Char), s.length ≤ fuel →
      ∀ x ∈ replaceAllF [c0] rep fuel s, x ≠ c0 := by
  intro fuel
  induction fuel with
  | zero =>
    intro s hlen x hx
    rcases s with - | ⟨d, rest⟩
    · cases hx
    · simp at hlen
  | succ f ih =>
    intro s hlen x hx
    rcases s with - | ⟨d, rest⟩
    · cases hx
    · rw [replaceAllF] at hx
      by_cases hd : d = c0
      · rw [if_pos ⟨by simp, by simp [pfx, hd]⟩] at hx
        rcases List.mem_append.mp hx with hx | hx
        · exact hrep x hx
        · refine ih rest ?_ x (by simpa using hx)
          simpa using Nat.le_of_succ_le_succ hlen
      · rw [if_neg ?hcond] at hx
        case hcond =>
          rintro ⟨-, hpfx⟩
          simp [pfx] at hpfx
          exact hd hpfx.symm
        rcases List.mem_cons.mp hx with rfl | hx
        · exact hd
        · exact ih rest (Nat.le_of_succ_le_succ hlen) x hx

/-- After the map passes, no character of a single-character key whose
replacement avoids it survives. -/
theorem emojiFold_removes :
    ∀ (L : List (List Char × List Char)) (s : List Char) (c0 : Char),
      (∃ p ∈ L, p.1 = [c0]) → (∀ p ∈ L, ∀ x ∈ p.2, x ≠ c0) →
      ∀ x ∈ L.foldl (fun t p => replaceAll p.1 p.2 t) s, x ≠ c0 := by
  intro L
  induction L with
  | nil =>
    rintro s c0 ⟨p, hp, -⟩
    cases hp
  | cons p rest ih =>
    intro s c0 hex hrep x hx
    rw [List.foldl_cons] at hx
    rcases hex with ⟨p', hp', he'⟩
    rcases List.mem_cons.mp hp' with rfl | hp'
    · refine emojiFold_all rest _ (fun e => e ≠ c0) ?_
        (fun q hq => hrep q (List.mem_cons_of_mem _ hq)) x hx
      intro e he
      rw [replaceAll, he'] at he
      exact replaceAllF_single_removes c0 p'.2
        (hrep p' (List.mem_cons_self _ _)) s.length s (le_refl _) e he
    · exact ih _ c0 ⟨p', hp', he'⟩
        (fun q hq => hrep q (List.mem_cons_of_mem _ hq)) x hx

theorem handleEmojis_dead (s : List Char) :
    ∀ c ∈ handleEmojis s, emojiLive c = false := by
  intro c hc
  rw [handleEmojis] at hc
  have hrange : inEmojiRange c = false := by
    simpa using (List.mem_filter.mp hc).2
  have hstar : c ≠ '⭐' := by
    refine emojiFold_removes emojiMap s '⭐' ?_ (by decide) c
      (List.mem_filter.mp hc).1
    exact ⟨("⭐".data, "*".data), by decide, rfl⟩
  rw [emojiLive, hrange]
  simpa using hstar

theorem handleEmojis_eq_self (s : List Char)
    (h : ∀ c ∈ s, emojiLive c = false) : handleEmojis s = s := by
  rw [handleEmojis,
    emojiFold_eq_self emojiMap s emojiLive (by decide) h]
  rw [List.filter_eq_self]
  intro c hc
  have := h c hc
  rw [emojiLive, Bool.or_eq_false_iff] at this
  simp [this.1]

theorem noCtrl_spec {s : List Char} (h : noCtrl s = true) :
    ∀ c ∈ s, ∀ p ∈ escapeChars, c ≠ p.1 := by
  intro c hc p hp heq
  rw [noCtrl, List.all_eq_true] at h
  have h1 := h c hc
  rw [Bool.not_eq_true', List.any_eq_false] at h1
  exact h1 p hp (by simp [heq])

theorem escapeLatex_dead (t : List Char) :
    ∀ c ∈ escapeLatex t, emojiLive c = false := by
  intro c hc
  rw [escapeLatex] at hc
  refine replaceAllF_all _ _ (fun d => emojiLive d = false) _ _
    ?_ (by decide) c hc
  refine replaceAllF_all _ _ (fun d => emojiLive d = false) _ _
    ?_ (by decide)
  refine replaceAllF_all _ _ (fun d => emojiLive d = false) _ _
    ?_ (by decide)
  refine escFold_all escapeChars _ (fun d => emojiLive d = false)
    ?_ (by decide)
  exact handleEmojis_dead t

theorem escapeLatex_eq_self {s : List Char} (hc : noCtrl s = true)
    (hr : ∀ c ∈ s, emojiLive c = false) : escapeLatex s = s := by
  have hbs : ∀ c ∈ s, (c = '\\' : Bool) = false := by
    intro c hcs
    have := noCtrl_spec hc c hcs ('\\', "\\textbackslash\x7b\x7d".data)
      (by decide)
    simpa using this
  have h1 : replaceAll "\\textbf\\_\x7b".data "\\textbf\x7b".data s = s := by
    rw [replaceAll]
    exact replaceAllF_eq_self _ _ (fun c => c = '\\') s.length s (by decide) hbs
  have h2 : replaceAll "\\textit\\_\x7b".data "\\textit\x7b".data s = s := by
    rw [replaceAll]
    exact replaceAllF_eq_self _ _ (fun c => c = '\\') s.length s (by decide) hbs
  have h3 : replaceAll "\\texttt\\_\x7b".data "\\texttt\x7b".data s = s := by
    rw [replaceAll]
    exact replaceAllF_eq_self _ _ (fun c => c = '\\') s.length s (by decide) hbs
  rw [escapeLatex, handleEmojis_eq_self s hr,
    escFold_eq_self escapeChars s (fun p hp x hx => noCtrl_spec hc x hx p hp),
    h1, h2, h3]

theorem fmtFind_decomp (dl : List Char) :
    ∀ {l inner rem : List Char}, fmtFind dl l = some (inner, rem) →
      l = inner ++ dl ++ rem := by
  intro l
  induction l with
  | nil => intro inner rem h; cases h
  | cons c rest ih =>
    intro inner rem h
    rw [fmtFind] at h
    by_cases hn : c = '\n'
    · rw [if_pos hn] at h; cases h
    · rw [if_neg hn] at h
      by_cases hp : pfx dl rest = true
      · rw [if_pos hp] at h
        injection h with h
        injection h with h1 h2
        subst h1
        subst h2
        simpa using pfx_append_drop hp
      · rw [if_neg hp] at h
        rcases hf : fmtFind dl rest with - | ⟨inner', rem'⟩
        · rw [hf] at h; cases h
        · rw [hf] at h
          injection h with h
          injection h with h1 h2
          subst h1
          subst h2
          simpa using ih hf

theorem fmtPassF_eq_or_mem (dl cmd : List Char) {bs : Char}
    (hbs : bs ∈ cmd) :
    ∀ (fuel : Nat) (s : List Char),
      fmtPassF dl cmd fuel s = s ∨ bs ∈ fmtPassF dl cmd fuel s := by
  intro fuel
  induction fuel with
  | zero => intro s; exact Or.inl rfl
  | succ f ih =>
    intro s
    rcases s with - | ⟨c, rest⟩
    · exact Or.inl rfl
    · rw [fmtPassF]
      by_cases hp : pfx dl (c :: rest) = true
      · rw [if_pos hp]
        rcases hf : fmtFind dl (List.drop dl.length (c :: rest)) with - | ⟨inner, rem⟩
        · rcases ih rest with he | hm
          · exact Or.inl (by rw [he])
          · exact Or.inr (List.mem_cons_of_mem c hm)
        · exact Or.inr (List.mem_append_left _ hbs)
      · rw [if_neg hp]
        rcases ih rest with he | hm
        · exact Or.inl (by rw [he])
        · exact Or.inr (List.mem_cons_of_mem c hm)

theorem fmtPassF_mem (dl cmd : List Char) {x : Char} (hx : x ∉ dl) :
    ∀ (fuel : Nat) (s : List Char), x ∈ s → x ∈ fmtPassF dl cmd fuel s := by
  intro fuel
  induction fuel with
  | zero => intro s hs; exact hs
  | succ f ih =>
    intro s hs
    rcases s with - | ⟨c, rest⟩
    · cases hs
    · rw [fmtPassF]
      by_cases hp : pfx dl (c :: rest) = true
      · rw [if_pos hp]
        rcases hf : fmtFind dl (List.drop dl.length (c :: rest)) with - | ⟨inner, rem⟩
        · rcases List.mem_cons.mp hs with rfl | hs
          · exact List.mem_cons_self _ _
          · exact List.mem_cons_of_mem c (ih rest hs)
        · have hdec : c :: rest = dl ++ (inner ++ dl ++ rem) := by
            have h1 := pfx_append_drop hp
            have h2 := fmtFind_decomp dl hf
            rw [h1, ← h2]
          have hin : x ∈ inner ∨ x ∈ rem := by
            rw [hdec] at hs
            rcases List.mem_append.mp hs with hs | hs
            · exact absurd hs hx
            · rcases List.mem_append.mp hs with hs | hs
              · rcases List.mem_append.mp hs with hs | hs
                · exact Or.inl hs
                · exact absurd hs hx
              · exact Or.inr hs
          rcases hin with hin | hin
          · refine List.mem_append_right _ ?_
            exact List.mem_cons_of_mem _ (List.mem_append_left _ hin)
          · refine List.mem_append_right _ ?_
            refine List.mem_cons_of_mem _ (List.mem_append_right _ ?_)
            exact List.mem_cons_of_mem _ (ih rem hin)
      · rw [if_neg hp]
        rcases List.mem_cons.mp hs with rfl | hs
        · exact List.mem_cons_self _ _
        · exact List.mem_cons_of_mem c (ih rest hs)

/-- Claim C1: for text `x` that is the output of the inline formatter
applied to escaped text and contains no raw markup-control characters,
escaping is idempotent: `escapeLatex (escapeLatex x) = escapeLatex x`.
(When `x` contains none of the characters `escapeLatex` rewrites, the
formatter cannot have injected any `\textbf`/`\textit`/`\texttt` command
into it — those contain backslashes and braces — and `escapeLatex` leaves
`x` untouched, so no double-escaping can occur.) -/
theorem escapeLatex_idem_on_format (t x : List Char)
    (hx : x = formatInlineMarkdown (escapeLatex t))
    (hc : noCtrl x = true) :
    escapeLatex (escapeLatex x) = escapeLatex x := by
  have hb : ('\\' : Char) ∉ x := by
    intro hmem
    exact noCtrl_spec hc '\\' hmem ('\\', "\\textbackslash\x7b\x7d".data)
      (by decide) rfl
  have hxy : x = escapeLatex t := by
    rw [formatInlineMarkdown] at hx
    set y := escapeLatex t with hy
    set zB := fmtPass "**".data "\\textbf".data y with hzB
    set zI := fmtPass "*".data "\\textit".data zB with hzI
    have hB : zB = y := by
      rcases fmtPassF_eq_or_mem "**".data "\\textbf".data
          (show '\\' ∈ "\\textbf".data by decide) y.length y with he | hm
      · rw [hzB, fmtPass, he]
      · exfalso
        apply hb
        rw [hx]
        refine fmtPassF_mem "`".data "\\texttt".data (by decide) _ _ ?_
        refine fmtPassF_mem "*".data "\\textit".data (by decide) _ _ ?_
        exact hm
    have hI : zI = y := by
      rcases fmtPassF_eq_or_mem "*".data "\\textit".data
          (show '\\' ∈ "\\textit".data by decide) zB.length zB with he | hm
      · rw [hzI, fmtPass, he, hB]
      · exfalso
        apply hb
        rw [hx]
        exact fmtPassF_mem "`".data "\\texttt".data (by decide) _ _ hm
    rcases fmtPassF_eq_or_mem "`".data "\\texttt".data
        (show '\\' ∈ "\\texttt".data by decide) zI.length zI with he | hm
    · rw [hx, fmtPass, he, hI]
    · exact absurd (hx ▸ hm) hb
  have hr : ∀ c ∈ x, emojiLive c = false := by
    intro c hcx
    exact escapeLatex_dead t c (hxy ▸ hcx)
  exact congrArg escapeLatex (escapeLatex_eq_self hc hr) |>.trans
    (escapeLatex_eq_self hc hr) |>.trans (escapeLatex_eq_self hc hr).symm

/-- Claim C1 instantiated at the plain text `hi`: the formatter output
contains no control characters and escaping it again changes nothing. -/
theorem escapeLatex_idem_on_format_witness :
    noCtrl (formatInlineMarkdown (escapeLatex "hi".data)) = true ∧
    escapeLatex (escapeLatex (formatInlineMarkdown (escapeLatex "hi".data))) =
      escapeLatex (formatInlineMarkdown (escapeLatex "hi".data)) :=
  ⟨by decide,
    escapeLatex_idem_on_format "hi".data _ rfl (by decide)⟩

end BeamerCli
